import Mathlib

/-!
Verification of the `mywheel-cpp` bounded priority queue (`BPQueue` over
intrusive sentinel-headed doubly linked lists).

The embedding models the queue state shallowly:
* nodes are referred to by identifiers (`NodeId`); the per-node fields
  `data.second` (the stored unsigned key) and the lock flag
  (`next == this`) are carried as finite-support maps in the state;
* each bucket (`Dllist`) is the list of node ids it holds, front to back;
* the C++ `UInt` (that is, `uint32_t`) arithmetic is modelled on `Nat`
  with explicit reduction modulo `2 ^ 32`;
* every operation whose C++ body can fail an `assert` or perform an
  out-of-bounds vector access returns `Option`; `none` is the fatal path.

A separate pointer-level model (`Dllink.Heap`) embeds `Dllink::lock`,
`Dllink::is_locked` and `Dllink::detach` directly on `next`/`prev` maps.
-/

namespace Mywheel

/-- Node identifier.  Nodes are owned by the caller; the queue refers to
them by id. -/
abbrev NodeId := Nat

/-- The id we reserve for the queue's built-in sentinel node
(`BPQueue::sentinel`), which the constructor places into `bucket[0]`. -/
def sentinelId : NodeId := 0

/-- Modulus of the C++ key type `UInt = std::make_unsigned_t<int32_t>`,
that is `uint32_t`. -/
def uintMod : Nat := 2 ^ 32

/-- `uint32_t` addition (`x + y` on `UInt`). -/
def uadd (x y : Nat) : Nat := (x + y) % uintMod

/-- `uint32_t` subtraction (`x - y` on `UInt`), with wrap-around. -/
def usub (x y : Nat) : Nat := (x % uintMod + (uintMod - y % uintMod)) % uintMod

/-- `static_cast<UInt>(z)` for a signed value `z`: reduction modulo
`2 ^ 32`. -/
def intToUInt (z : Int) : Nat := (z % (uintMod : Int)).toNat

/-- `static_cast<Int>(x)` for an unsigned value `x`: reinterpret the
residue modulo `2 ^ 32` as a signed 32-bit value. -/
def uintToInt (x : Nat) : Int :=
  if x % uintMod < 2 ^ 31 then (x % uintMod : Int) else (x % uintMod : Int) - (uintMod : Int)

/-- Pointwise update of a per-node map. -/
def updF {α : Type} (f : NodeId → α) (x : NodeId) (v : α) : NodeId → α :=
  fun y => if y = x then v else f y

/-- State of a `BPQueue` together with the node fields it manipulates.

`bucket` is the array of doubly linked lists (`bucket[j]` listed front to
back), `max` the current maximum occupied index, `offset = a - 1` and
`high = b - offset` exactly as in the C++ data members.  `key n` is node
`n`'s stored internal key (`it.data.second`) and `locked n` the flag
`it.next == &it` tested by `Dllink::is_locked`. -/
structure BPQueue where
  bucket : List (List NodeId)
  max : Nat
  offset : Int
  high : Nat
  key : NodeId → Nat
  locked : NodeId → Bool

/-- The bucket at index `j` (empty when out of range; the C++ vector
access is out of bounds there, which the operations below guard). -/
def bucketAt (q : BPQueue) (j : Nat) : List NodeId := q.bucket.getD j []

/-- `BPQueue::BPQueue(a, b)`: `b - a + 2` empty buckets, the sentinel
node appended at the front of `bucket[0]`, `max = 0`, `offset = a - 1`,
`high = b - offset`.  `key0`/`locked0` are the caller-owned node fields
at construction time. -/
def mkBPQueue (a b : Int) (key0 : NodeId → Nat) (locked0 : NodeId → Bool) : BPQueue :=
  { bucket := (List.replicate ((b - a).toNat + 2) ([] : List NodeId)).set 0 [sentinelId]
  , max := 0
  , offset := a - 1
  , high := (b - (a - 1)).toNat
  , key := key0
  , locked := locked0 }

/-- `BPQueue::is_empty()`: `max == 0`. -/
def is_empty (q : BPQueue) : Bool := q.max == 0

/-- `BPQueue::get_max()`: `offset + Int(max)`. -/
def get_max (q : BPQueue) : Int := q.offset + uintToInt q.max

/-- `BPQueue::set_key(it, gain)`: store `UInt(gain - offset)` into the
node's key field; nothing else is touched. -/
def set_key (q : BPQueue) (it : NodeId) (gain : Int) : BPQueue :=
  { q with key := updF q.key it (intToUInt (gain - q.offset)) }

/-- `BPQueue::appendleft(it, k)`: `assert(k > offset)`, store the
translated key, raise `max` if needed, and push the node at the front of
its bucket.  `none` models a failed assert or an out-of-range bucket
access. -/
def appendleft (q : BPQueue) (it : NodeId) (k : Int) : Option BPQueue :=
  if k ≤ q.offset then none else
  if intToUInt (k - q.offset) < q.bucket.length then
    some { q with
      key := updF q.key it (intToUInt (k - q.offset))
      locked := updF q.locked it false
      max := if q.max < intToUInt (k - q.offset) then intToUInt (k - q.offset) else q.max
      bucket := q.bucket.set (intToUInt (k - q.offset))
        (it :: q.bucket.getD (intToUInt (k - q.offset)) []) }
  else none

/-- `BPQueue::append(it, k)`: like `appendleft` but the node is pushed at
the back of its bucket. -/
def append (q : BPQueue) (it : NodeId) (k : Int) : Option BPQueue :=
  if k ≤ q.offset then none else
  if intToUInt (k - q.offset) < q.bucket.length then
    some { q with
      key := updF q.key it (intToUInt (k - q.offset))
      locked := updF q.locked it false
      max := if q.max < intToUInt (k - q.offset) then intToUInt (k - q.offset) else q.max
      bucket := q.bucket.set (intToUInt (k - q.offset))
        (q.bucket.getD (intToUInt (k - q.offset)) [] ++ [it]) }
  else none

/-- `BPQueue::appendleft_direct(it)`: `assert(Int(it.data.second) >
offset)` then `appendleft(it, Int(it.data.second))`. -/
def appendleft_direct (q : BPQueue) (it : NodeId) : Option BPQueue :=
  if uintToInt (q.key it) ≤ q.offset then none
  else appendleft q it (uintToInt (q.key it))

/-- The downward scan `while (bucket[max].is_empty()) { max -= 1; }`.
Returns `none` when the unsigned counter would underflow below bucket 0
(every bucket from the start down to 0 empty), which in the C++ wraps
around and reads out of bounds. -/
def scanMax (bucket : List (List NodeId)) : Nat → Option Nat
  | 0 => if (bucket.getD 0 []).isEmpty then none else some 0
  | m + 1 => if (bucket.getD (m + 1) []).isEmpty then scanMax bucket m else some (m + 1)

/-- `BPQueue::popleft()`: pop the front node of `bucket[max]`, then scan
`max` downward to the next non-empty bucket.  Popping an empty list would
detach the list's own self-linked head, which fails
`Dllink::detach`'s assert: `none`. -/
def popleft (q : BPQueue) : Option (NodeId × BPQueue) :=
  match q.bucket.getD q.max [] with
  | [] => none
  | res :: rest =>
    match scanMax (q.bucket.set q.max rest) q.max with
    | none => none
    | some m => some (res, { q with bucket := q.bucket.set q.max rest, max := m })

/-- The effect of `it.detach()` on the bucket array: the node is spliced
out of whatever list holds it. -/
def eraseAll (bucket : List (List NodeId)) (it : NodeId) : List (List NodeId) :=
  bucket.map (fun l => l.erase it)

/-- `BPQueue::decrease_key(it, delta)`: `it.detach()` (asserting the node
is not locked), subtract `delta` from the stored key with `uint32_t`
wrap-around, `assert(key > 0)`, `assert(key <= high)`, append the node at
the back of the new bucket, then either raise `max` or scan it
downward. -/
def decrease_key (q : BPQueue) (it : NodeId) (delta : Nat) : Option BPQueue :=
  if q.locked it then none else
  if usub (q.key it) delta = 0 then none else
  if q.high < usub (q.key it) delta then none else
  if usub (q.key it) delta < (eraseAll q.bucket it).length then
    if q.max < usub (q.key it) delta then
      some { q with
        bucket := (eraseAll q.bucket it).set (usub (q.key it) delta)
          ((eraseAll q.bucket it).getD (usub (q.key it) delta) [] ++ [it])
        key := updF q.key it (usub (q.key it) delta)
        max := usub (q.key it) delta }
    else
      match scanMax ((eraseAll q.bucket it).set (usub (q.key it) delta)
          ((eraseAll q.bucket it).getD (usub (q.key it) delta) [] ++ [it])) q.max with
      | none => none
      | some m => some { q with
          bucket := (eraseAll q.bucket it).set (usub (q.key it) delta)
            ((eraseAll q.bucket it).getD (usub (q.key it) delta) [] ++ [it])
          key := updF q.key it (usub (q.key it) delta)
          max := m }
  else none

/-- `BPQueue::increase_key(it, delta)`: `it.detach()`, add `delta` to the
stored key with `uint32_t` wrap-around, assert the range, push the node
at the front of the new bucket, and raise `max` if needed (no downward
scan here). -/
def increase_key (q : BPQueue) (it : NodeId) (delta : Nat) : Option BPQueue :=
  if q.locked it then none else
  if uadd (q.key it) delta = 0 then none else
  if q.high < uadd (q.key it) delta then none else
  if uadd (q.key it) delta < (eraseAll q.bucket it).length then
    some { q with
      bucket := (eraseAll q.bucket it).set (uadd (q.key it) delta)
        (it :: (eraseAll q.bucket it).getD (uadd (q.key it) delta) [])
      key := updF q.key it (uadd (q.key it) delta)
      max := if q.max < uadd (q.key it) delta then uadd (q.key it) delta else q.max }
  else none

/-- `BPQueue::modify_key(it, delta)`: a locked node is silently ignored;
otherwise dispatch on the sign of `delta` (cast to `UInt`). -/
def modify_key (q : BPQueue) (it : NodeId) (delta : Int) : Option BPQueue :=
  if q.locked it then some q
  else if 0 < delta then increase_key q it (intToUInt delta)
  else if delta < 0 then decrease_key q it (intToUInt (-delta))
  else some q

/-- `BPQueue::detach(it)`: `it.detach()` (asserting the node is not
locked) followed by the downward scan of `max`. -/
def detach (q : BPQueue) (it : NodeId) : Option BPQueue :=
  if q.locked it then none else
  match scanMax (eraseAll q.bucket it) q.max with
  | none => none
  | some m => some { q with bucket := eraseAll q.bucket it, max := m }

/-- The loop of `BPQueue::clear()`: empty buckets `max, max - 1, ..., 1`. -/
def clearBuckets (bucket : List (List NodeId)) : Nat → List (List NodeId)
  | 0 => bucket
  | m + 1 => clearBuckets (bucket.set (m + 1) []) m

/-- `BPQueue::clear()`: clear every bucket from `max` down to 1 and reset
`max` to 0. -/
def clear (q : BPQueue) : BPQueue :=
  { q with bucket := clearBuckets q.bucket q.max, max := 0 }

/-- A node is queued when some content bucket (index above 0) holds it. -/
def queued (q : BPQueue) (n : NodeId) : Prop :=
  ∃ j < q.bucket.length, 0 < j ∧ n ∈ bucketAt q j

instance (q : BPQueue) (n : NodeId) : Decidable (queued q n) := by
  unfold queued; infer_instance

/-- The structural invariant of a `BPQueue`, as maintained by the code:
the bucket array has `high + 1` entries, `bucket[0]` permanently holds
exactly the sentinel, `max` points at the highest non-empty bucket (0
when no content node is queued), every queued node's stored key is the
index of its bucket, queued nodes are unlocked and distinct from the
sentinel, and no node sits in two buckets. -/
def WF (q : BPQueue) : Prop :=
  q.bucket.length = q.high + 1 ∧
  q.high < uintMod ∧
  bucketAt q 0 = [sentinelId] ∧
  q.max ≤ q.high ∧
  (∀ j < q.bucket.length, q.max < j → bucketAt q j = []) ∧
  (0 < q.max → bucketAt q q.max ≠ []) ∧
  (∀ j < q.bucket.length, 0 < j →
    ∀ n ∈ bucketAt q j, q.key n = j ∧ n ≠ sentinelId ∧ q.locked n = false) ∧
  (∀ j < q.bucket.length, (bucketAt q j).Nodup) ∧
  (∀ i < q.bucket.length, ∀ n ∈ bucketAt q i, ∀ j < q.bucket.length,
    i ≠ j → n ∉ bucketAt q j)

instance (q : BPQueue) : Decidable (WF q) := by
  unfold WF; infer_instance

namespace Dllink

/-- Pointer-level model of the intrusive `Dllink` node: the `next` and
`prev` fields of every node, as maps over node ids. -/
structure Heap where
  next : NodeId → NodeId
  prev : NodeId → NodeId

/-- `Dllink::lock()`: `this->next = this`. -/
def lock (h : Heap) (n : NodeId) : Heap := { h with next := updF h.next n n }

/-- `Dllink::is_locked()`: `this->next == this`. -/
def is_locked (h : Heap) (n : NodeId) : Bool := h.next n == n

/-- `Dllink::detach()`: `assert(!is_locked())`, then splice the node out
by `prev->next = next; next->prev = prev`.  The failed assert is the
`none` path. -/
def detach (h : Heap) (n : NodeId) : Option Heap :=
  if is_locked h n then none
  else some {
    next := updF h.next (h.prev n) (h.next n)
    prev := updF h.prev (h.next n) (h.prev n) }

end Dllink

/-- One mutating `BPQueue` operation (the nine operations named by the
spec's invariant paragraph). -/
inductive MutOp where
  | app (n : NodeId) (k : Int)
  | appl (n : NodeId) (k : Int)
  | apld (n : NodeId)
  | pop
  | inc (n : NodeId) (d : Nat)
  | dec (n : NodeId) (d : Nat)
  | mod (n : NodeId) (d : Int)
  | det (n : NodeId)
  | clr

/-- Run one mutating operation. -/
def applyMut (q : BPQueue) : MutOp → Option BPQueue
  | .app n k => append q n k
  | .appl n k => appendleft q n k
  | .apld n => appendleft_direct q n
  | .pop => (popleft q).map Prod.snd
  | .inc n d => increase_key q n d
  | .dec n d => decrease_key q n d
  | .mod n d => modify_key q n d
  | .det n => detach q n
  | .clr => some (clear q)

/-- The caller-side preconditions of each operation, as stated by the
spec (fresh node for insertions, queued unlocked node and in-range
resulting key for key updates, `int32_t`-ranged delta for `modify_key`).
They exclude exactly the undefined-behaviour paths of the C++ (inserting
a node already linked into a list, key arithmetic wrapping around
`uint32_t`). -/
def sideOK (q : BPQueue) : MutOp → Prop
  | .app n k => n ≠ sentinelId ∧ ¬queued q n ∧ k - q.offset < (uintMod : Int)
  | .appl n k => n ≠ sentinelId ∧ ¬queued q n ∧ k - q.offset < (uintMod : Int)
  | .apld n => n ≠ sentinelId ∧ ¬queued q n ∧ uintToInt (q.key n) - q.offset < (uintMod : Int)
  | .pop => True
  | .inc n d => n ≠ sentinelId ∧ queued q n ∧ 0 < d ∧ q.key n + d ≤ q.high
  | .dec n d => n ≠ sentinelId ∧ queued q n ∧ 0 < d ∧ d < q.key n
  | .mod n d => q.locked n = true ∨
      (n ≠ sentinelId ∧ queued q n ∧ -(2 ^ 31 : Int) ≤ d ∧ d < 2 ^ 31 ∧
        (0 < d → q.key n + intToUInt d ≤ q.high) ∧ (d < 0 → intToUInt (-d) < q.key n))
  | .det n => n ≠ sentinelId ∧ queued q n
  | .clr => True

/-- How each mutating operation changes the number of attached content
nodes: insertions add one, `popleft`/`detach` remove one, key updates
move a node without changing the count, `clear` empties the queue. -/
def countSpec : MutOp → Nat → Nat → Prop
  | .app _ _, old, new => new = old + 1
  | .appl _ _, old, new => new = old + 1
  | .apld _, old, new => new = old + 1
  | .pop, old, new => new + 1 = old
  | .inc _ _, old, new => new = old
  | .dec _ _, old, new => new = old
  | .mod _ _, old, new => new = old
  | .det _, old, new => new + 1 = old
  | .clr, _, new => new = 0

/-- Concatenation of the buckets `m, m - 1, ..., 1`, each front to back:
the exact visiting order of the descending iterator
(`BPQueue::begin()` starts in bucket `max`; advancing walks the current
bucket and then skips down over empty buckets; bucket 0 — whose first
element is the permanent sentinel — is `end()`). -/
def canonSeq (f : Nat → List NodeId) : Nat → List NodeId
  | 0 => []
  | m + 1 => f (m + 1) ++ canonSeq f m

/-- The node sequence visited by iterating from `begin()` to `end()`. -/
def toListDesc (q : BPQueue) : List NodeId := canonSeq (bucketAt q) q.max

/-- Number of content nodes attached to the queue (total size of buckets
`1 .. high`). -/
def contentCount (q : BPQueue) : Nat :=
  (Finset.range q.high).sum fun i => (bucketAt q (i + 1)).length

/-- Repeated `popleft()` until the queue reports empty (with explicit
fuel; a fatal `popleft` stops the drain). -/
def drainAux : Nat → BPQueue → List NodeId
  | 0, _ => []
  | fuel + 1, q =>
    if is_empty q then []
    else
      match popleft q with
      | none => []
      | some (n, q2) => n :: drainAux fuel q2

/-- Drain the whole queue by repeated `popleft()`. -/
def drainAll (q : BPQueue) : List NodeId := drainAux (contentCount q) q

/-- An insertion call: `append(n, k)` or `appendleft(n, k)`. -/
inductive InsOp where
  | app (n : NodeId) (k : Int)
  | appl (n : NodeId) (k : Int)

/-- The node an insertion call hands to the queue. -/
def InsOp.node : InsOp → NodeId
  | .app n _ => n
  | .appl n _ => n

/-- The external key an insertion call supplies. -/
def InsOp.gain : InsOp → Int
  | .app _ k => k
  | .appl _ k => k

/-- Run a sequence of insertion calls left to right. -/
def applyIns (q : BPQueue) : List InsOp → Option BPQueue
  | [] => some q
  | .app n k :: ops => (append q n k).bind (fun q2 => applyIns q2 ops)
  | .appl n k :: ops => (appendleft q n k).bind (fun q2 => applyIns q2 ops)

/-- The nodes inserted by `append` with external key `k`, in call
order. -/
def appNodes (ops : List InsOp) (k : Int) : List NodeId :=
  ops.filterMap fun op =>
    match op with
    | .app n g => if g = k then some n else none
    | .appl _ _ => none

/-- The nodes inserted by `appendleft` with external key `k`, in call
order. -/
def apLeftNodes (ops : List InsOp) (k : Int) : List NodeId :=
  ops.filterMap fun op =>
    match op with
    | .appl n g => if g = k then some n else none
    | .app _ _ => none

/-- The nodes inserted by `append` into internal bucket `j`, in call
order. -/
def appNodesI (offset : Int) (ops : List InsOp) (j : Nat) : List NodeId :=
  ops.filterMap fun op =>
    match op with
    | .app n g => if intToUInt (g - offset) = j then some n else none
    | .appl _ _ => none

/-- The nodes inserted by `appendleft` into internal bucket `j`, in call
order. -/
def apLeftNodesI (offset : Int) (ops : List InsOp) (j : Nat) : List NodeId :=
  ops.filterMap fun op =>
    match op with
    | .appl n g => if intToUInt (g - offset) = j then some n else none
    | .app _ _ => none

/-- A small concrete state used to instantiate theorems: queue over
`[0, 3]` (`offset = -1`, `high = 4`) holding node 1 at external key 2
(bucket 3) and node 2 at external key 0 (bucket 1). -/
def sampleQ : BPQueue :=
  { bucket := [[sentinelId], [2], [], [1], []]
  , max := 3
  , offset := -1
  , high := 4
  , key := fun n => if n = 1 then 3 else if n = 2 then 1 else 0
  , locked := fun _ => false }

/-- `sampleQ` with the (unqueued) node 5 locked. -/
def sampleLockedQ : BPQueue := { sampleQ with locked := fun n => n == 5 }

/-! ### Helper lemmas and preservation of the structural invariant -/

/-! ### Basic arithmetic facts about the machine-integer casts -/

theorem uintToInt_zero : uintToInt 0 = 0 := by
  simp [uintToInt, uintMod]

theorem uintToInt_eq_zero_iff (x : Nat) (h : x < uintMod) : uintToInt x = 0 ↔ x = 0 := by
  unfold uintToInt
  unfold uintMod at h ⊢
  rw [Nat.mod_eq_of_lt h]
  by_cases hlt : x < 2 ^ 31
  · rw [if_pos hlt]
    omega
  · rw [if_neg hlt]
    omega

theorem intToUInt_of_nonneg (z : Int) (h0 : 0 ≤ z) (h1 : z < (uintMod : Int)) :
    intToUInt z = z.toNat := by
  unfold intToUInt
  rw [Int.emod_eq_of_lt h0 h1]

theorem uadd_eq (x y : Nat) (h : x + y < uintMod) : uadd x y = x + y := by
  unfold uadd
  exact Nat.mod_eq_of_lt h

theorem usub_eq (x y : Nat) (hx : x < uintMod) (hy : y ≤ x) : usub x y = x - y := by
  unfold usub
  rw [Nat.mod_eq_of_lt hx, Nat.mod_eq_of_lt (lt_of_le_of_lt hy hx)]
  have h1 : x + (uintMod - y) = uintMod + (x - y) := by omega
  rw [h1, Nat.add_mod_left, Nat.mod_eq_of_lt (by omega)]

/-! ### List access helpers -/

theorem getD_set_self (l : List (List NodeId)) (i : Nat) (x : List NodeId)
    (h : i < l.length) : (l.set i x).getD i [] = x := by
  simp [List.getD_eq_getElem?_getD, List.getElem?_set_eq_of_lt _ h]

theorem getD_set_ne (l : List (List NodeId)) (i j : Nat) (x : List NodeId)
    (h : i ≠ j) : (l.set i x).getD j [] = l.getD j [] := by
  simp [List.getD_eq_getElem?_getD, List.getElem?_set_ne h]

theorem getD_eraseAll (l : List (List NodeId)) (n : NodeId) (j : Nat) :
    (eraseAll l n).getD j [] = (l.getD j []).erase n := by
  unfold eraseAll
  simp only [List.getD_eq_getElem?_getD, List.getElem?_map]
  cases l[j]? <;> simp

theorem getD_oob (l : List (List NodeId)) (j : Nat) (h : l.length ≤ j) :
    l.getD j [] = [] := by
  simp [List.getD_eq_getElem?_getD, List.getElem?_eq_none h]

theorem length_eraseAll (l : List (List NodeId)) (n : NodeId) :
    (eraseAll l n).length = l.length := by
  simp [eraseAll]

/-! ### The downward max scan -/

theorem scanMax_spec (b : List (List NodeId)) (m m' : Nat) (h : scanMax b m = some m') :
    m' ≤ m ∧ b.getD m' [] ≠ [] ∧ ∀ j, m' < j → j ≤ m → b.getD j [] = [] := by
  induction m with
  | zero =>
    unfold scanMax at h
    by_cases he : (b.getD 0 []).isEmpty
    · rw [if_pos he] at h
      exact absurd h (by simp)
    · rw [if_neg he] at h
      injection h with h
      subst h
      exact ⟨le_refl _, by simpa using he, fun j h1 h2 => by omega⟩
  | succ m ih =>
    unfold scanMax at h
    by_cases he : (b.getD (m + 1) []).isEmpty
    · rw [if_pos he] at h
      obtain ⟨h1, h2, h3⟩ := ih h
      refine ⟨by omega, h2, fun j hj1 hj2 => ?_⟩
      rcases Nat.lt_or_ge j (m + 1) with hj | hj
      · exact h3 j hj1 (by omega)
      · have : j = m + 1 := by omega
        subst this
        simpa using he
    · rw [if_neg he] at h
      injection h with h
      subst h
      exact ⟨le_refl _, by simpa using he, fun j h1 h2 => by omega⟩

theorem scanMax_total (b : List (List NodeId)) (m : Nat) (h0 : b.getD 0 [] ≠ []) :
    ∃ m', scanMax b m = some m' := by
  induction m with
  | zero =>
    refine ⟨0, ?_⟩
    unfold scanMax
    rw [if_neg (by simpa using h0)]
  | succ m ih =>
    by_cases he : (b.getD (m + 1) []).isEmpty
    · obtain ⟨m', hm'⟩ := ih
      exact ⟨m', by unfold scanMax; rw [if_pos he]; exact hm'⟩
    · exact ⟨m + 1, by unfold scanMax; rw [if_neg he]⟩

theorem scanMax_ge (b : List (List NodeId)) (m m' j : Nat) (h : scanMax b m = some m')
    (hj : j ≤ m) (hne : b.getD j [] ≠ []) : j ≤ m' := by
  obtain ⟨h1, h2, h3⟩ := scanMax_spec b m m' h
  by_contra hc
  exact hne (h3 j (by omega) hj)

/-! ### Facts that follow from the invariant -/

theorem queued_key (q : BPQueue) (hw : WF q) (n : NodeId) (hq : queued q n) :
    0 < q.key n ∧ q.key n < q.bucket.length ∧ n ∈ bucketAt q (q.key n) ∧
      n ≠ sentinelId ∧ q.locked n = false := by
  obtain ⟨hlen, hM, hb0, hmax, habove, hne, hkeys, hnodup, hdisj⟩ := hw
  obtain ⟨j, hj, h0, hmem⟩ := hq
  obtain ⟨hk, hns, hl⟩ := hkeys j hj h0 n hmem
  subst hk
  exact ⟨h0, hj, hmem, hns, hl⟩

theorem mem_bucket_unique (q : BPQueue) (hw : WF q) (n : NodeId) (i j : Nat)
    (hi : i < q.bucket.length) (hj : j < q.bucket.length)
    (hmi : n ∈ bucketAt q i) (hmj : n ∈ bucketAt q j) : i = j := by
  obtain ⟨hlen, hM, hb0, hmax, habove, hne, hkeys, hnodup, hdisj⟩ := hw
  by_contra hc
  exact hdisj i hi n hmi j hj hc hmj

theorem not_queued_notin (q : BPQueue) (hw : WF q) (n : NodeId) (hns : n ≠ sentinelId)
    (hnq : ¬queued q n) (j : Nat) : n ∉ bucketAt q j := by
  obtain ⟨hlen, hM, hb0, hmax, habove, hne, hkeys, hnodup, hdisj⟩ := hw
  intro hmem
  rcases Nat.lt_or_ge j q.bucket.length with hj | hj
  · rcases Nat.eq_zero_or_pos j with rfl | h0
    · rw [hb0] at hmem
      simp at hmem
      exact hns hmem
    · exact hnq ⟨j, hj, h0, hmem⟩
  · unfold bucketAt at hmem
    rw [getD_oob _ _ hj] at hmem
    simp at hmem

theorem queued_key_le_max (q : BPQueue) (hw : WF q) (n : NodeId) (hq : queued q n) :
    q.key n ≤ q.max := by
  obtain ⟨h0, hjlt, hmem, hns, hl⟩ := queued_key q hw n hq
  obtain ⟨hlen, hM, hb0, hmax, habove, hne, hkeys, hnodup, hdisj⟩ := hw
  by_contra hc
  rw [habove (q.key n) hjlt (by omega)] at hmem
  simp at hmem

/-- Per-bucket properties survive replacing each bucket by a sublist of
itself (emptying, dropping the head, erasing an element). -/
theorem bucket_props_of_sublist (q : BPQueue) (hw : WF q) (B : List (List NodeId))
    (hsub : ∀ j < q.bucket.length, (B.getD j []).Sublist (bucketAt q j)) :
    (∀ j < q.bucket.length, 0 < j →
      ∀ m ∈ B.getD j [], q.key m = j ∧ m ≠ sentinelId ∧ q.locked m = false) ∧
    (∀ j < q.bucket.length, (B.getD j []).Nodup) ∧
    (∀ i < q.bucket.length, ∀ m ∈ B.getD i [], ∀ j < q.bucket.length,
      i ≠ j → m ∉ B.getD j []) := by
  obtain ⟨hlen, hM, hb0, hmax, habove, hne, hkeys, hnodup, hdisj⟩ := hw
  refine ⟨?_, ?_, ?_⟩
  · intro j hj h0 m hm
    exact hkeys j hj h0 m ((hsub j hj).subset hm)
  · intro j hj
    exact (hnodup j hj).sublist (hsub j hj)
  · intro i hi m hm j hj hij hmj
    exact hdisj i hi m ((hsub i hi).subset hm) j hj hij ((hsub j hj).subset hmj)

/-- Effect and invariant preservation of a successful `popleft` on a
non-empty well-formed queue: the head of `bucket[max]` is removed and
`max` is rescanned downward. -/
theorem popleft_spec (q : BPQueue) (hw : WF q) (hm : 0 < q.max) :
    ∃ n rest m2, bucketAt q q.max = n :: rest ∧
      scanMax (q.bucket.set q.max rest) q.max = some m2 ∧
      popleft q = some (n, { q with bucket := q.bucket.set q.max rest, max := m2 }) ∧
      WF { q with bucket := q.bucket.set q.max rest, max := m2 } := by
  obtain ⟨hlen, hM, hb0, hmax, habove, hne, hkeys, hnodup, hdisj⟩ := hw
  obtain ⟨n, rest, hcons⟩ : ∃ n rest, bucketAt q q.max = n :: rest := by
    cases hc : bucketAt q q.max with
    | nil => exact absurd hc (hne hm)
    | cons n rest => exact ⟨n, rest, rfl⟩
  have hmlt : q.max < q.bucket.length := by omega
  have hb0' : (q.bucket.set q.max rest).getD 0 [] = [sentinelId] := by
    rw [getD_set_ne _ _ _ _ (by omega)]
    exact hb0
  obtain ⟨m2, hm2⟩ := scanMax_total (q.bucket.set q.max rest) q.max (by rw [hb0']; simp)
  obtain ⟨hm2le, hm2ne, hm2emp⟩ := scanMax_spec _ _ _ hm2
  have hsub : ∀ j < q.bucket.length,
      ((q.bucket.set q.max rest).getD j []).Sublist (bucketAt q j) := by
    intro j hj
    rcases eq_or_ne q.max j with rfl | hne2
    · rw [getD_set_self _ _ _ hmlt, hcons]
      exact List.sublist_cons_self n rest
    · rw [getD_set_ne _ _ _ _ hne2]
      exact List.Sublist.refl _
  have hwf0 : WF q := ⟨hlen, hM, hb0, hmax, habove, hne, hkeys, hnodup, hdisj⟩
  obtain ⟨hk', hn', hd'⟩ := bucket_props_of_sublist q hwf0 (q.bucket.set q.max rest) hsub
  refine ⟨n, rest, m2, hcons, hm2, ?_, ?_⟩
  · unfold popleft
    unfold bucketAt at hcons
    rw [hcons]
    dsimp only
    rw [hm2]
  · have hlen' : (q.bucket.set q.max rest).length = q.bucket.length := by
      simp [List.length_set]
    refine ⟨by rw [hlen']; exact hlen, hM, hb0', by show m2 ≤ q.high; omega, ?_, ?_, ?_, ?_, ?_⟩
    · intro j hj hlt
      rcases le_or_lt j q.max with hjle | hjgt
      · exact hm2emp j hlt hjle
      · show (q.bucket.set q.max rest).getD j [] = []
        rw [getD_set_ne _ _ _ _ (by omega)]
        exact habove j (by simpa [hlen'] using hj) hjgt
    · intro h0
      exact hm2ne
    · intro j hj h0 m hmem
      exact hk' j (by simpa [hlen'] using hj) h0 m hmem
    · intro j hj
      exact hn' j (by simpa [hlen'] using hj)
    · intro i hi m hm j hj hij
      exact hd' i (by simpa [hlen'] using hi) m hm j (by simpa [hlen'] using hj) hij

theorem length_clearBuckets (b : List (List NodeId)) (m : Nat) :
    (clearBuckets b m).length = b.length := by
  induction m generalizing b with
  | zero => rfl
  | succ m ih =>
    unfold clearBuckets
    rw [ih]
    simp [List.length_set]

theorem getD_clearBuckets (b : List (List NodeId)) (m j : Nat) :
    (clearBuckets b m).getD j [] =
      if 1 ≤ j ∧ j ≤ m ∧ j < b.length then [] else b.getD j [] := by
  induction m generalizing b with
  | zero =>
    unfold clearBuckets
    rw [if_neg (by omega)]
  | succ m ih =>
    unfold clearBuckets
    rw [ih]
    by_cases hc : 1 ≤ j ∧ j ≤ m ∧ j < (b.set (m + 1) []).length
    · rw [if_pos hc, if_pos (by simp only [List.length_set] at hc; omega)]
    · rw [if_neg hc]
      simp only [List.length_set] at hc
      rcases eq_or_ne j (m + 1) with rfl | hj
      · by_cases hlt : m + 1 < b.length
        · rw [getD_set_self _ _ _ hlt, if_pos (by omega)]
        · rw [if_neg (by omega), getD_oob _ _ (by simp only [List.length_set]; omega),
            getD_oob _ _ (by omega)]
      · rw [getD_set_ne _ _ _ _ (Ne.symm hj), if_neg (by omega)]

/-- `clear` preserves the invariant (and leaves an empty queue). -/
theorem clear_WF (q : BPQueue) (hw : WF q) : WF (clear q) := by
  have hw0 := hw
  obtain ⟨hlen, hM, hb0, hmax, habove, hne, hkeys, hnodup, hdisj⟩ := hw
  have hsub : ∀ j < q.bucket.length,
      ((clearBuckets q.bucket q.max).getD j []).Sublist (bucketAt q j) := by
    intro j hj
    rw [getD_clearBuckets]
    by_cases hc : 1 ≤ j ∧ j ≤ q.max ∧ j < q.bucket.length
    · rw [if_pos hc]
      exact List.nil_sublist _
    · rw [if_neg hc]
      exact List.Sublist.refl _
  obtain ⟨hk', hn', hd'⟩ := bucket_props_of_sublist q hw0 _ hsub
  have hlen' : (clearBuckets q.bucket q.max).length = q.bucket.length :=
    length_clearBuckets _ _
  have hconv : ∀ t : Nat, t < (clear q).bucket.length → t < q.bucket.length := by
    intro t ht
    rw [← hlen']
    exact ht
  refine ⟨?_, hM, ?_, ?_, ?_, ?_, ?_, ?_, ?_⟩
  · show (clearBuckets q.bucket q.max).length = q.high + 1
    rw [hlen']
    exact hlen
  · show (clearBuckets q.bucket q.max).getD 0 [] = [sentinelId]
    rw [getD_clearBuckets, if_neg (by omega)]
    exact hb0
  · show (0 : Nat) ≤ q.high
    omega
  · intro j hj h0
    have hj2 : j < q.bucket.length := hconv j hj
    have h0' : 0 < j := h0
    show (clearBuckets q.bucket q.max).getD j [] = []
    rw [getD_clearBuckets]
    by_cases hc : 1 ≤ j ∧ j ≤ q.max ∧ j < q.bucket.length
    · rw [if_pos hc]
    · rw [if_neg hc]
      exact habove j hj2 (by omega)
  · intro h0
    exact absurd (show 0 < 0 from h0) (by omega)
  · intro j hj h0 m hmem
    exact hk' j (hconv j hj) h0 m hmem
  · intro j hj
    exact hn' j (hconv j hj)
  · intro i hi m hm j hj hij
    exact hd' i (hconv i hi) m hm j (hconv j hj) hij

/-- Effect and invariant preservation of a successful `detach` of a
queued node. -/
theorem detach_spec (q : BPQueue) (n : NodeId) (hw : WF q) (hq : queued q n)
    (hns : n ≠ sentinelId) :
    ∃ m2, scanMax (eraseAll q.bucket n) q.max = some m2 ∧
      detach q n = some { q with bucket := eraseAll q.bucket n, max := m2 } ∧
      WF { q with bucket := eraseAll q.bucket n, max := m2 } := by
  have hw0 := hw
  obtain ⟨h0k, hklt, hkmem, hns', hl⟩ := queued_key q hw n hq
  obtain ⟨hlen, hM, hb0, hmax, habove, hne, hkeys, hnodup, hdisj⟩ := hw
  have hb0' : (eraseAll q.bucket n).getD 0 [] = [sentinelId] := by
    rw [getD_eraseAll]
    show (bucketAt q 0).erase n = [sentinelId]
    rw [hb0, List.erase_of_not_mem (by simp [hns])]
  obtain ⟨m2, hm2⟩ := scanMax_total (eraseAll q.bucket n) q.max (by rw [hb0']; simp)
  obtain ⟨hm2le, hm2ne, hm2emp⟩ := scanMax_spec _ _ _ hm2
  have hsub : ∀ j < q.bucket.length,
      ((eraseAll q.bucket n).getD j []).Sublist (bucketAt q j) := by
    intro j hj
    rw [getD_eraseAll]
    exact List.erase_sublist _ _
  obtain ⟨hk', hn', hd'⟩ := bucket_props_of_sublist q hw0 _ hsub
  have hlen' : (eraseAll q.bucket n).length = q.bucket.length := length_eraseAll _ _
  refine ⟨m2, hm2, ?_, ?_⟩
  · unfold detach
    rw [if_neg (by simp [hl]), hm2]
  · refine ⟨by rw [hlen']; exact hlen, hM, hb0', by show m2 ≤ q.high; omega, ?_, ?_, ?_, ?_, ?_⟩
    · intro j hj hlt
      rcases le_or_lt j q.max with hjle | hjgt
      · exact hm2emp j hlt hjle
      · show (eraseAll q.bucket n).getD j [] = []
        rw [getD_eraseAll]
        show (bucketAt q j).erase n = []
        rw [habove j (by rw [hlen'] at hj; exact hj) hjgt]
        rfl
    · intro h0
      exact hm2ne
    · intro j hj h0 m hmem
      exact hk' j (by rw [hlen'] at hj; exact hj) h0 m hmem
    · intro j hj
      exact hn' j (by rw [hlen'] at hj; exact hj)
    · intro i hi m hm j hj hij
      exact hd' i (by rw [hlen'] at hi; exact hi) m hm j (by rw [hlen'] at hj; exact hj) hij

theorem mem_only_at_key (q : BPQueue) (hw : WF q) (n : NodeId) (hq : queued q n) :
    ∀ j, j ≠ q.key n → n ∉ bucketAt q j := by
  obtain ⟨h0k, hklt, hkmem, hns', hl⟩ := queued_key q hw n hq
  intro j hj hmem
  rcases Nat.lt_or_ge j q.bucket.length with hjlt | hjge
  · exact hj (mem_bucket_unique q hw n j (q.key n) hjlt hklt hmem hkmem)
  · unfold bucketAt at hmem
    rw [getD_oob _ _ hjge] at hmem
    simp at hmem

/-- Invariant preservation for inserting a fresh node into bucket `ik`,
for any placement `x` of the node within that bucket (front or back). -/
theorem insert_WF (q : BPQueue) (n : NodeId) (ik : Nat) (x : List NodeId)
    (hw : WF q) (hns : n ≠ sentinelId) (hnq : ¬queued q n)
    (h1 : 1 ≤ ik) (h2 : ik < q.bucket.length)
    (hxmem : ∀ m, m ∈ x ↔ m = n ∨ m ∈ bucketAt q ik)
    (hxnd : n ∉ bucketAt q ik → x.Nodup)
    (hxne : x ≠ []) :
    WF { q with
      key := updF q.key n ik
      locked := updF q.locked n false
      max := if q.max < ik then ik else q.max
      bucket := q.bucket.set ik x } := by
  have hnotin : ∀ j, n ∉ bucketAt q j := not_queued_notin q hw n hns hnq
  obtain ⟨hlen, hM, hb0, hmax, habove, hne, hkeys, hnodup, hdisj⟩ := hw
  have hb' : ∀ j, j ≠ ik → (q.bucket.set ik x).getD j [] = bucketAt q j := by
    intro j hj
    exact getD_set_ne _ _ _ _ (Ne.symm hj)
  have hbik : (q.bucket.set ik x).getD ik [] = x := getD_set_self _ _ _ h2
  refine ⟨?_, hM, ?_, ?_, ?_, ?_, ?_, ?_, ?_⟩
  · show (q.bucket.set ik x).length = q.high + 1
    rw [List.length_set]
    exact hlen
  · show (q.bucket.set ik x).getD 0 [] = [sentinelId]
    rw [hb' 0 (by omega)]
    exact hb0
  · show (if q.max < ik then ik else q.max) ≤ q.high
    split <;> omega
  · intro j hj hlt
    have hj2 : j < (q.bucket.set ik x).length := hj
    rw [List.length_set] at hj2
    have hlt2 : (if q.max < ik then ik else q.max) < j := hlt
    show (q.bucket.set ik x).getD j [] = []
    rw [hb' j (by split at hlt2 <;> omega)]
    exact habove j hj2 (by split at hlt2 <;> omega)
  · intro h0
    show (q.bucket.set ik x).getD (if q.max < ik then ik else q.max) [] ≠ []
    by_cases hmx : q.max < ik
    · rw [if_pos hmx, hbik]
      exact hxne
    · rw [if_neg hmx]
      rcases eq_or_ne q.max ik with heq | hne2
      · rw [heq, hbik]
        exact hxne
      · rw [hb' q.max hne2]
        have h0' : 0 < (if q.max < ik then ik else q.max) := h0
        rw [if_neg hmx] at h0'
        exact hne h0'
  · intro j hj h0 m hmem
    have hj2 : j < (q.bucket.set ik x).length := hj
    rw [List.length_set] at hj2
    have hkey : ∀ m2 : NodeId, m2 ≠ n → updF q.key n ik m2 = q.key m2 := by
      intro m2 hm2
      simp [updF, hm2]
    have hlock : ∀ m2 : NodeId, m2 ≠ n → updF q.locked n false m2 = q.locked m2 := by
      intro m2 hm2
      simp [updF, hm2]
    rcases eq_or_ne j ik with heq | hne2
    · subst heq
      replace hmem : m ∈ (q.bucket.set j x).getD j [] := hmem
      rw [hbik] at hmem
      rcases (hxmem m).mp hmem with rfl | hmo
      · refine ⟨?_, hns, ?_⟩
        · show updF q.key m j m = j
          simp [updF]
        · show updF q.locked m false m = false
          simp [updF]
      · have hmn : m ≠ n := fun hc => hnotin j (hc ▸ hmo)
        obtain ⟨hk1, hk2, hk3⟩ := hkeys j hj2 h0 m hmo
        refine ⟨?_, hk2, ?_⟩
        · show updF q.key n j m = j
          rw [hkey m hmn]
          exact hk1
        · show updF q.locked n false m = false
          rw [hlock m hmn]
          exact hk3
    · replace hmem : m ∈ (q.bucket.set ik x).getD j [] := hmem
      rw [hb' j hne2] at hmem
      have hmn : m ≠ n := fun hc => hnotin j (hc ▸ hmem)
      obtain ⟨hk1, hk2, hk3⟩ := hkeys j hj2 h0 m hmem
      refine ⟨?_, hk2, ?_⟩
      · show updF q.key n ik m = j
        rw [hkey m hmn]
        exact hk1
      · show updF q.locked n false m = false
        rw [hlock m hmn]
        exact hk3
  · intro j hj
    have hj2 : j < (q.bucket.set ik x).length := hj
    rw [List.length_set] at hj2
    show ((q.bucket.set ik x).getD j []).Nodup
    rcases eq_or_ne j ik with rfl | hne2
    · rw [hbik]
      exact hxnd (hnotin j)
    · rw [hb' j hne2]
      exact hnodup j hj2
  · intro i hi m hm j hj hij
    have hi2 : i < (q.bucket.set ik x).length := hi
    rw [List.length_set] at hi2
    have hj2 : j < (q.bucket.set ik x).length := hj
    rw [List.length_set] at hj2
    show m ∉ (q.bucket.set ik x).getD j []
    replace hm : m ∈ (q.bucket.set ik x).getD i [] := hm
    rcases eq_or_ne i ik with rfl | hine
    · rw [hbik] at hm
      rw [hb' j (by omega)]
      rcases (hxmem m).mp hm with rfl | hmo
      · exact hnotin j
      · exact hdisj i hi2 m hmo j hj2 hij
    · rw [hb' i hine] at hm
      have hmn : m ≠ n := fun hc => hnotin i (hc ▸ hm)
      rcases eq_or_ne j ik with rfl | hjne
      · rw [hbik]
        intro hc
        rcases (hxmem m).mp hc with rfl | hmo
        · exact hmn rfl
        · exact hdisj i hi2 m hm j hj2 hij hmo
      · rw [hb' j hjne]
        exact hdisj i hi2 m hm j hj2 hij

/-- Unfolding of a successful `append`. -/
theorem append_eq (q : BPQueue) (n : NodeId) (k : Int)
    (h1 : q.offset < k) (h2 : intToUInt (k - q.offset) < q.bucket.length) :
    append q n k = some { q with
      key := updF q.key n (intToUInt (k - q.offset))
      locked := updF q.locked n false
      max := if q.max < intToUInt (k - q.offset) then intToUInt (k - q.offset) else q.max
      bucket := q.bucket.set (intToUInt (k - q.offset))
        (q.bucket.getD (intToUInt (k - q.offset)) [] ++ [n]) } := by
  unfold append
  rw [if_neg (by omega), if_pos h2]

/-- Unfolding of a successful `appendleft`. -/
theorem appendleft_eq (q : BPQueue) (n : NodeId) (k : Int)
    (h1 : q.offset < k) (h2 : intToUInt (k - q.offset) < q.bucket.length) :
    appendleft q n k = some { q with
      key := updF q.key n (intToUInt (k - q.offset))
      locked := updF q.locked n false
      max := if q.max < intToUInt (k - q.offset) then intToUInt (k - q.offset) else q.max
      bucket := q.bucket.set (intToUInt (k - q.offset))
        (n :: q.bucket.getD (intToUInt (k - q.offset)) []) } := by
  unfold appendleft
  rw [if_neg (by omega), if_pos h2]

/-- The internal index of a successful insertion is in `[1, high]`. -/
theorem ik_bounds (q : BPQueue) (k : Int) (hw : WF q)
    (h1 : q.offset < k) (hwrap : k - q.offset < (uintMod : Int))
    (h2 : intToUInt (k - q.offset) < q.bucket.length) :
    1 ≤ intToUInt (k - q.offset) ∧ intToUInt (k - q.offset) ≤ q.high := by
  obtain ⟨hlen, hM, hb0, hmax, habove, hne, hkeys, hnodup, hdisj⟩ := hw
  rw [intToUInt_of_nonneg _ (by omega) hwrap] at h2 ⊢
  constructor
  · omega
  · omega

/-- Invariant preservation for a successful `append` of a fresh node. -/
theorem append_WF (q : BPQueue) (n : NodeId) (k : Int) (q2 : BPQueue)
    (hw : WF q) (hns : n ≠ sentinelId) (hnq : ¬queued q n)
    (hwrap : k - q.offset < (uintMod : Int))
    (h : append q n k = some q2) : WF q2 := by
  by_cases hg1 : k ≤ q.offset
  · unfold append at h
    rw [if_pos hg1] at h
    exact absurd h (by simp)
  by_cases hg2 : intToUInt (k - q.offset) < q.bucket.length
  · rw [append_eq q n k (by omega) hg2] at h
    injection h with h
    subst h
    obtain ⟨hik1, hik2⟩ := ik_bounds q k hw (by omega) hwrap hg2
    have hnotin : ∀ j, n ∉ bucketAt q j := not_queued_notin q hw n hns hnq
    refine insert_WF q n (intToUInt (k - q.offset)) _ hw hns hnq hik1 hg2 ?_ ?_ ?_
    · intro m
      simp [bucketAt, or_comm]
    · intro hnm
      have hnd : (bucketAt q (intToUInt (k - q.offset))).Nodup := by
        obtain ⟨hlen, hM, hb0, hmax, habove, hne, hkeys, hnodup, hdisj⟩ := hw
        exact hnodup _ hg2
      refine List.Nodup.append hnd (List.nodup_singleton n) ?_
      intro a ha hb
      simp at hb
      subst hb
      exact hnm ha
    · simp
  · unfold append at h
    rw [if_neg hg1, if_neg hg2] at h
    exact absurd h (by simp)

/-- Invariant preservation for a successful `appendleft` of a fresh
node. -/
theorem appendleft_WF (q : BPQueue) (n : NodeId) (k : Int) (q2 : BPQueue)
    (hw : WF q) (hns : n ≠ sentinelId) (hnq : ¬queued q n)
    (hwrap : k - q.offset < (uintMod : Int))
    (h : appendleft q n k = some q2) : WF q2 := by
  by_cases hg1 : k ≤ q.offset
  · unfold appendleft at h
    rw [if_pos hg1] at h
    exact absurd h (by simp)
  by_cases hg2 : intToUInt (k - q.offset) < q.bucket.length
  · rw [appendleft_eq q n k (by omega) hg2] at h
    injection h with h
    subst h
    obtain ⟨hik1, hik2⟩ := ik_bounds q k hw (by omega) hwrap hg2
    have hnotin : ∀ j, n ∉ bucketAt q j := not_queued_notin q hw n hns hnq
    refine insert_WF q n (intToUInt (k - q.offset)) _ hw hns hnq hik1 hg2 ?_ ?_ ?_
    · intro m
      simp [bucketAt]
    · intro hnm
      have hnd : (bucketAt q (intToUInt (k - q.offset))).Nodup := by
        obtain ⟨hlen, hM, hb0, hmax, habove, hne, hkeys, hnodup, hdisj⟩ := hw
        exact hnodup _ hg2
      exact List.Nodup.cons hnm hnd
    · simp
  · unfold appendleft at h
    rw [if_neg hg1, if_neg hg2] at h
    exact absurd h (by simp)

/-- Invariant preservation for a successful `appendleft_direct`. -/
theorem appendleft_direct_WF (q : BPQueue) (n : NodeId) (q2 : BPQueue)
    (hw : WF q) (hns : n ≠ sentinelId) (hnq : ¬queued q n)
    (hwrap : uintToInt (q.key n) - q.offset < (uintMod : Int))
    (h : appendleft_direct q n = some q2) : WF q2 := by
  unfold appendleft_direct at h
  by_cases hg1 : uintToInt (q.key n) ≤ q.offset
  · rw [if_pos hg1] at h
    exact absurd h (by simp)
  · rw [if_neg hg1] at h
    exact appendleft_WF q n (uintToInt (q.key n)) q2 hw hns hnq hwrap h

/-- Bucket-array properties after detaching a queued node `n` and
re-inserting it (as `x`) into a different bucket `k2`. -/
theorem moved_buckets_props (q : BPQueue) (n : NodeId) (k2 : Nat) (x : List NodeId)
    (hw : WF q) (hq : queued q n)
    (hk2a : 1 ≤ k2) (hk2b : k2 < q.bucket.length) (hk2ne : k2 ≠ q.key n)
    (hxmem : ∀ m, m ∈ x ↔ m = n ∨ m ∈ bucketAt q k2)
    (hxnd : n ∉ bucketAt q k2 → (bucketAt q k2).Nodup → x.Nodup) :
    ((eraseAll q.bucket n).set k2 x).length = q.bucket.length ∧
    ((eraseAll q.bucket n).set k2 x).getD 0 [] = [sentinelId] ∧
    (∀ j, j ≠ k2 → ((eraseAll q.bucket n).set k2 x).getD j [] = (bucketAt q j).erase n) ∧
    ((eraseAll q.bucket n).set k2 x).getD k2 [] = x ∧
    (∀ j < q.bucket.length, 0 < j → ∀ m ∈ ((eraseAll q.bucket n).set k2 x).getD j [],
      updF q.key n k2 m = j ∧ m ≠ sentinelId ∧ q.locked m = false) ∧
    (∀ j < q.bucket.length, (((eraseAll q.bucket n).set k2 x).getD j []).Nodup) ∧
    (∀ i < q.bucket.length, ∀ m ∈ ((eraseAll q.bucket n).set k2 x).getD i [],
      ∀ j < q.bucket.length, i ≠ j → m ∉ ((eraseAll q.bucket n).set k2 x).getD j []) := by
  obtain ⟨h0k, hklt, hkmem, hns', hl⟩ := queued_key q hw n hq
  have honly := mem_only_at_key q hw n hq
  have hw0 := hw
  obtain ⟨hlen, hM, hb0, hmax, habove, hne, hkeys, hnodup, hdisj⟩ := hw
  have hlenE : (eraseAll q.bucket n).length = q.bucket.length := length_eraseAll _ _
  have hbj : ∀ j, j ≠ k2 →
      ((eraseAll q.bucket n).set k2 x).getD j [] = (bucketAt q j).erase n := by
    intro j hj
    rw [getD_set_ne _ _ _ _ (Ne.symm hj), getD_eraseAll]
    rfl
  have hbk2 : ((eraseAll q.bucket n).set k2 x).getD k2 [] = x :=
    getD_set_self _ _ _ (by rw [hlenE]; exact hk2b)
  have hkey : ∀ m2 : NodeId, m2 ≠ n → updF q.key n k2 m2 = q.key m2 := by
    intro m2 hm2
    simp [updF, hm2]
  have hmemchar : ∀ j, j ≠ k2 → ∀ m ∈ ((eraseAll q.bucket n).set k2 x).getD j [],
      m ≠ n ∧ m ∈ bucketAt q j := by
    intro j hj m hm
    rw [hbj j hj] at hm
    rcases Nat.lt_or_ge j q.bucket.length with hjlt | hjge
    · exact (List.Nodup.mem_erase_iff (hnodup j hjlt)).mp hm
    · unfold bucketAt at hm
      rw [getD_oob _ _ hjge] at hm
      simp at hm
  refine ⟨by rw [List.length_set, hlenE], ?_, hbj, hbk2, ?_, ?_, ?_⟩
  · rw [hbj 0 (by omega), hb0, List.erase_of_not_mem (by simp [hns'])]
  · intro j hj h0 m hm
    rcases eq_or_ne j k2 with heq | hne2
    · subst heq
      rw [hbk2] at hm
      rcases (hxmem m).mp hm with rfl | hmo
      · exact ⟨by simp [updF], hns', hl⟩
      · have hmn : m ≠ n := fun hc => honly j hk2ne (hc ▸ hmo)
        obtain ⟨hq1, hq2, hq3⟩ := hkeys j hj h0 m hmo
        exact ⟨by rw [hkey m hmn]; exact hq1, hq2, hq3⟩
    · obtain ⟨hmn, hmo⟩ := hmemchar j hne2 m hm
      obtain ⟨hq1, hq2, hq3⟩ := hkeys j hj h0 m hmo
      exact ⟨by rw [hkey m hmn]; exact hq1, hq2, hq3⟩
  · intro j hj
    rcases eq_or_ne j k2 with heq | hne2
    · subst heq
      rw [hbk2]
      exact hxnd (honly j hk2ne) (hnodup j hj)
    · rw [hbj j hne2]
      exact (hnodup j hj).erase n
  · intro i hi m hmi j hj hij
    rcases eq_or_ne i k2 with heqi | hnei
    · subst heqi
      rw [hbk2] at hmi
      rw [hbj j (Ne.symm hij)]
      rcases (hxmem m).mp hmi with rfl | hmo
      · intro hc
        exact ((List.Nodup.mem_erase_iff (hnodup j hj)).mp hc).1 rfl
      · intro hc
        exact hdisj i hi m hmo j hj hij (List.mem_of_mem_erase hc)
    · obtain ⟨hmn, hmo⟩ := hmemchar i hnei m hmi
      rcases eq_or_ne j k2 with heqj | hnej
      · subst heqj
        rw [hbk2]
        intro hc
        rcases (hxmem m).mp hc with rfl | hmo2
        · exact hmn rfl
        · exact hdisj i hi m hmo j hj hij hmo2
      · rw [hbj j hnej]
        intro hc
        exact hdisj i hi m hmo j hj hij (List.mem_of_mem_erase hc)

/-- Unfolding, invariant preservation, and bucket placement for a
successful `increase_key`. -/
theorem increase_key_spec (q : BPQueue) (n : NodeId) (d : Nat)
    (hw : WF q) (hq : queued q n) (hd : 0 < d) (hhi : q.key n + d ≤ q.high) :
    increase_key q n d = some { q with
      bucket := (eraseAll q.bucket n).set (q.key n + d)
        (n :: (eraseAll q.bucket n).getD (q.key n + d) [])
      key := updF q.key n (q.key n + d)
      max := if q.max < q.key n + d then q.key n + d else q.max } ∧
    (eraseAll q.bucket n).getD (q.key n + d) [] = bucketAt q (q.key n + d) ∧
    WF { q with
      bucket := (eraseAll q.bucket n).set (q.key n + d)
        (n :: (eraseAll q.bucket n).getD (q.key n + d) [])
      key := updF q.key n (q.key n + d)
      max := if q.max < q.key n + d then q.key n + d else q.max } := by
  obtain ⟨h0k, hklt, hkmem, hns', hl⟩ := queued_key q hw n hq
  have honly := mem_only_at_key q hw n hq
  have hw0 := hw
  obtain ⟨hlen, hM, hb0, hmax, habove, hne, hkeys, hnodup, hdisj⟩ := hw
  have huadd : uadd (q.key n) d = q.key n + d := uadd_eq _ _ (by omega)
  have hE : (eraseAll q.bucket n).getD (q.key n + d) [] = bucketAt q (q.key n + d) := by
    rw [getD_eraseAll]
    exact List.erase_of_not_mem (honly _ (by omega))
  have hprops := moved_buckets_props q n (q.key n + d)
    (n :: (eraseAll q.bucket n).getD (q.key n + d) []) hw0 hq (by omega) (by omega)
    (by omega)
    (by intro m; rw [hE]; simp)
    (by intro hn hnd; rw [hE]; exact List.Nodup.cons hn hnd)
  obtain ⟨hPlen, hPb0, hPj, hPk2, hPkeys, hPnodup, hPdisj⟩ := hprops
  constructor
  · unfold increase_key
    rw [if_neg (by simp [hl]), huadd, if_neg (by omega), if_neg (by omega),
      if_pos (by rw [length_eraseAll]; omega)]
  refine ⟨hE, ?_, hM, hPb0, ?_, ?_, ?_, ?_, ?_, ?_⟩
  · show ((eraseAll q.bucket n).set (q.key n + d)
      (n :: (eraseAll q.bucket n).getD (q.key n + d) [])).length = q.high + 1
    rw [hPlen]
    exact hlen
  · show (if q.max < q.key n + d then q.key n + d else q.max) ≤ q.high
    split <;> omega
  · intro j hj hlt
    have hj2 : j < q.bucket.length := by
      have hj3 : j < ((eraseAll q.bucket n).set (q.key n + d)
        (n :: (eraseAll q.bucket n).getD (q.key n + d) [])).length := hj
      rw [hPlen] at hj3
      exact hj3
    have hlt2 : (if q.max < q.key n + d then q.key n + d else q.max) < j := hlt
    show ((eraseAll q.bucket n).set (q.key n + d)
      (n :: (eraseAll q.bucket n).getD (q.key n + d) [])).getD j [] = []
    rw [hPj j (by split at hlt2 <;> omega), habove j hj2 (by split at hlt2 <;> omega)]
    rfl
  · intro h0
    show ((eraseAll q.bucket n).set (q.key n + d)
      (n :: (eraseAll q.bucket n).getD (q.key n + d) [])).getD
      (if q.max < q.key n + d then q.key n + d else q.max) [] ≠ []
    by_cases hmx : q.max < q.key n + d
    · rw [if_pos hmx, hPk2]
      simp
    · rw [if_neg hmx]
      rcases eq_or_ne q.max (q.key n + d) with heq | hne2
      · rw [heq, hPk2]
        simp
      · rw [hPj q.max hne2, List.erase_of_not_mem (honly q.max (by omega))]
        exact hne (by omega)
  · intro j hj h0 m hm
    have hj2 : j < q.bucket.length := by
      have hj3 : j < ((eraseAll q.bucket n).set (q.key n + d)
        (n :: (eraseAll q.bucket n).getD (q.key n + d) [])).length := hj
      rw [hPlen] at hj3
      exact hj3
    exact hPkeys j hj2 h0 m hm
  · intro j hj
    have hj2 : j < q.bucket.length := by
      have hj3 : j < ((eraseAll q.bucket n).set (q.key n + d)
        (n :: (eraseAll q.bucket n).getD (q.key n + d) [])).length := hj
      rw [hPlen] at hj3
      exact hj3
    exact hPnodup j hj2
  · intro i hi m hm j hj hij
    have hi2 : i < q.bucket.length := by
      have hi3 : i < ((eraseAll q.bucket n).set (q.key n + d)
        (n :: (eraseAll q.bucket n).getD (q.key n + d) [])).length := hi
      rw [hPlen] at hi3
      exact hi3
    have hj2 : j < q.bucket.length := by
      have hj3 : j < ((eraseAll q.bucket n).set (q.key n + d)
        (n :: (eraseAll q.bucket n).getD (q.key n + d) [])).length := hj
      rw [hPlen] at hj3
      exact hj3
    exact hPdisj i hi2 m hm j hj2 hij

/-- Unfolding, invariant preservation, and bucket placement for a
successful `decrease_key`. -/
theorem decrease_key_spec (q : BPQueue) (n : NodeId) (d : Nat)
    (hw : WF q) (hq : queued q n) (hd : 0 < d) (hlo : d < q.key n) :
    ∃ m2, scanMax ((eraseAll q.bucket n).set (q.key n - d)
        ((eraseAll q.bucket n).getD (q.key n - d) [] ++ [n])) q.max = some m2 ∧
      q.key n - d ≤ m2 ∧ m2 ≤ q.max ∧
      decrease_key q n d = some { q with
        bucket := (eraseAll q.bucket n).set (q.key n - d)
          ((eraseAll q.bucket n).getD (q.key n - d) [] ++ [n])
        key := updF q.key n (q.key n - d)
        max := m2 } ∧
      (eraseAll q.bucket n).getD (q.key n - d) [] = bucketAt q (q.key n - d) ∧
      WF { q with
        bucket := (eraseAll q.bucket n).set (q.key n - d)
          ((eraseAll q.bucket n).getD (q.key n - d) [] ++ [n])
        key := updF q.key n (q.key n - d)
        max := m2 } := by
  obtain ⟨h0k, hklt, hkmem, hns', hl⟩ := queued_key q hw n hq
  have honly := mem_only_at_key q hw n hq
  have hkmax : q.key n ≤ q.max := queued_key_le_max q hw n hq
  have hw0 := hw
  obtain ⟨hlen, hM, hb0, hmax, habove, hne, hkeys, hnodup, hdisj⟩ := hw
  have husub : usub (q.key n) d = q.key n - d := usub_eq _ _ (by omega) (by omega)
  have hE : (eraseAll q.bucket n).getD (q.key n - d) [] = bucketAt q (q.key n - d) := by
    rw [getD_eraseAll]
    exact List.erase_of_not_mem (honly _ (by omega))
  have hprops := moved_buckets_props q n (q.key n - d)
    ((eraseAll q.bucket n).getD (q.key n - d) [] ++ [n]) hw0 hq (by omega) (by omega)
    (by omega)
    (by intro m; rw [hE]; simp [or_comm])
    (by
      intro hn hnd
      rw [hE]
      refine List.Nodup.append hnd (List.nodup_singleton n) ?_
      intro a ha hb
      simp at hb
      subst hb
      exact hn ha)
  obtain ⟨hPlen, hPb0, hPj, hPk2, hPkeys, hPnodup, hPdisj⟩ := hprops
  obtain ⟨m2, hm2⟩ := scanMax_total _ q.max (by rw [hPb0]; simp)
  obtain ⟨hm2le, hm2ne, hm2emp⟩ := scanMax_spec _ _ _ hm2
  have hk2m2 : q.key n - d ≤ m2 :=
    scanMax_ge _ _ _ _ hm2 (by omega) (by rw [hPk2]; simp)
  refine ⟨m2, hm2, hk2m2, hm2le, ?_, hE, ?_⟩
  · unfold decrease_key
    rw [if_neg (by simp [hl]), husub, if_neg (by omega), if_neg (by omega),
      if_pos (by rw [length_eraseAll]; omega), if_neg (by omega), hm2]
  refine ⟨?_, hM, hPb0, by show m2 ≤ q.high; omega, ?_, ?_, ?_, ?_, ?_⟩
  · show ((eraseAll q.bucket n).set (q.key n - d)
      ((eraseAll q.bucket n).getD (q.key n - d) [] ++ [n])).length = q.high + 1
    rw [hPlen]
    exact hlen
  · intro j hj hlt
    have hlt2 : m2 < j := hlt
    show ((eraseAll q.bucket n).set (q.key n - d)
      ((eraseAll q.bucket n).getD (q.key n - d) [] ++ [n])).getD j [] = []
    rcases le_or_lt j q.max with hjle | hjgt
    · exact hm2emp j hlt2 hjle
    · have hj2 : j < q.bucket.length := by
        have hj3 : j < ((eraseAll q.bucket n).set (q.key n - d)
          ((eraseAll q.bucket n).getD (q.key n - d) [] ++ [n])).length := hj
        rw [hPlen] at hj3
        exact hj3
      rw [hPj j (by omega), habove j hj2 hjgt]
      rfl
  · intro h0
    exact hm2ne
  · intro j hj h0 m hm
    have hj2 : j < q.bucket.length := by
      have hj3 : j < ((eraseAll q.bucket n).set (q.key n - d)
        ((eraseAll q.bucket n).getD (q.key n - d) [] ++ [n])).length := hj
      rw [hPlen] at hj3
      exact hj3
    exact hPkeys j hj2 h0 m hm
  · intro j hj
    have hj2 : j < q.bucket.length := by
      have hj3 : j < ((eraseAll q.bucket n).set (q.key n - d)
        ((eraseAll q.bucket n).getD (q.key n - d) [] ++ [n])).length := hj
      rw [hPlen] at hj3
      exact hj3
    exact hPnodup j hj2
  · intro i hi m hm j hj hij
    have hi2 : i < q.bucket.length := by
      have hi3 : i < ((eraseAll q.bucket n).set (q.key n - d)
        ((eraseAll q.bucket n).getD (q.key n - d) [] ++ [n])).length := hi
      rw [hPlen] at hi3
      exact hi3
    have hj2 : j < q.bucket.length := by
      have hj3 : j < ((eraseAll q.bucket n).set (q.key n - d)
        ((eraseAll q.bucket n).getD (q.key n - d) [] ++ [n])).length := hj
      rw [hPlen] at hj3
      exact hj3
    exact hPdisj i hi2 m hm j hj2 hij

/-- `popleft` on an empty well-formed queue is fatal: it pops the
sentinel out of `bucket[0]` and the downward scan then underflows. -/
theorem popleft_empty_none (q : BPQueue) (hw : WF q) (hm : q.max = 0) :
    popleft q = none := by
  obtain ⟨hlen, hM, hb0, hmax, habove, hne, hkeys, hnodup, hdisj⟩ := hw
  unfold popleft
  rw [hm]
  unfold bucketAt at hb0
  rw [hb0]
  dsimp only
  have hscan : scanMax (q.bucket.set 0 []) 0 = none := by
    unfold scanMax
    rw [if_pos (by rw [getD_set_self _ _ _ (by omega)]; rfl)]
  rw [hscan]

/-- Invariant preservation for a successful `modify_key` under its
caller-side preconditions. -/
theorem modify_key_WF (q : BPQueue) (n : NodeId) (d : Int) (q2 : BPQueue)
    (hw : WF q) (hok : sideOK q (.mod n d)) (h : modify_key q n d = some q2) : WF q2 := by
  unfold modify_key at h
  by_cases hl : q.locked n
  · rw [if_pos hl] at h
    injection h with h
    subst h
    exact hw
  · rw [if_neg hl] at h
    rcases hok with hok | ⟨hns, hq, hd1, hd2, hinc, hdec⟩
    · exact absurd hok hl
    by_cases hdp : 0 < d
    · rw [if_pos hdp] at h
      have hdn : 0 < intToUInt d := by
        rw [intToUInt_of_nonneg d (by omega) (by unfold uintMod; push_cast; omega)]
        omega
      obtain ⟨heq, hE, hwf⟩ := increase_key_spec q n (intToUInt d) hw hq hdn (hinc hdp)
      rw [heq] at h
      injection h with h
      subst h
      exact hwf
    · rw [if_neg hdp] at h
      by_cases hdm : d < 0
      · rw [if_pos hdm] at h
        have hdn : 0 < intToUInt (-d) := by
          rw [intToUInt_of_nonneg (-d) (by omega) (by unfold uintMod; push_cast; omega)]
          omega
        obtain ⟨m2, hm2, hge, hle, heq, hE, hwf⟩ :=
          decrease_key_spec q n (intToUInt (-d)) hw hq hdn (hdec hdm)
        rw [heq] at h
        injection h with h
        subst h
        exact hwf
      · rw [if_neg hdm] at h
        injection h with h
        subst h
        exact hw

/-- Under the invariant the queue is empty exactly when `get_max`
reports `offset = a - 1`. -/
theorem empty_iff_get_max (q : BPQueue) (hw : WF q) :
    is_empty q = true ↔ get_max q = q.offset := by
  obtain ⟨hlen, hM, hb0, hmax, habove, hne, hkeys, hnodup, hdisj⟩ := hw
  unfold is_empty get_max
  constructor
  · intro h
    have hm : q.max = 0 := by simpa using h
    rw [hm, uintToInt_zero]
    omega
  · intro h
    have hu : uintToInt q.max = 0 := by omega
    have hm : q.max = 0 := (uintToInt_eq_zero_iff q.max (by omega)).mp hu
    simp [hm]

/-- Under the invariant `max = 0` exactly when no content node is
queued. -/
theorem max_zero_iff_no_queued (q : BPQueue) (hw : WF q) :
    q.max = 0 ↔ ¬∃ n, queued q n := by
  obtain ⟨hlen, hM, hb0, hmax, habove, hne, hkeys, hnodup, hdisj⟩ := hw
  constructor
  · rintro hm ⟨n, j, hj, h0, hmem⟩
    rw [habove j hj (by omega)] at hmem
    simp at hmem
  · intro hq
    by_contra hm
    obtain ⟨n, rest, hcons⟩ : ∃ n rest, bucketAt q q.max = n :: rest := by
      cases hc : bucketAt q q.max with
      | nil => exact absurd hc (hne (by omega))
      | cons n rest => exact ⟨n, rest, rfl⟩
    exact hq ⟨n, q.max, by omega, by omega, by rw [hcons]; simp⟩

theorem getD_replicate (n j : Nat) :
    (List.replicate n ([] : List NodeId)).getD j [] = [] := by
  simp [List.getD_eq_getElem?_getD]

/-- The buckets of a freshly constructed queue: the sentinel alone in
bucket 0, everything else empty. -/
theorem bucketAt_mk (a b : Int) (key0 : NodeId → Nat) (locked0 : NodeId → Bool) (j : Nat) :
    bucketAt (mkBPQueue a b key0 locked0) j = if j = 0 then [sentinelId] else [] := by
  unfold bucketAt mkBPQueue
  rcases eq_or_ne j 0 with rfl | hj
  · rw [if_pos rfl]
    exact getD_set_self _ _ _ (by simp [List.length_replicate])
  · rw [if_neg hj, getD_set_ne _ _ _ _ (Ne.symm hj), getD_replicate]

theorem length_mk (a b : Int) (key0 : NodeId → Nat) (locked0 : NodeId → Bool) :
    (mkBPQueue a b key0 locked0).bucket.length = (b - a).toNat + 2 := by
  unfold mkBPQueue
  simp [List.length_set, List.length_replicate]

theorem high_mk (a b : Int) (hab : a ≤ b) :
    (b - (a - 1)).toNat = (b - a).toNat + 1 := by
  omega

/-- The constructor establishes the invariant (for a key range that fits
the unsigned key type). -/
theorem mkBPQueue_WF (a b : Int) (key0 : NodeId → Nat) (locked0 : NodeId → Bool)
    (hab : a ≤ b) (hsz : b - a + 1 < (uintMod : Int)) :
    WF (mkBPQueue a b key0 locked0) := by
  have hb := bucketAt_mk a b key0 locked0
  have hlen := length_mk a b key0 locked0
  have hhigh : (mkBPQueue a b key0 locked0).high = (b - a).toNat + 1 := high_mk a b hab
  refine ⟨?_, ?_, ?_, ?_, ?_, ?_, ?_, ?_, ?_⟩
  · rw [hlen, hhigh]
  · rw [hhigh]
    unfold uintMod at hsz ⊢
    omega
  · rw [hb 0, if_pos rfl]
  · show (0 : Nat) ≤ (mkBPQueue a b key0 locked0).high
    omega
  · intro j hj h0
    rw [hb j, if_neg (by
      show ¬ j = 0
      have h0' : (0 : Nat) < j := h0
      omega)]
  · intro h0
    exact absurd (show (0 : Nat) < 0 from h0) (by omega)
  · intro j hj h0 m hm
    rw [hb j, if_neg (by omega)] at hm
    simp at hm
  · intro j hj
    rw [hb j]
    split <;> simp
  · intro i hi m hm j hj hij
    rw [hb i] at hm
    rw [hb j]
    rcases eq_or_ne i 0 with rfl | hi0
    · rw [if_pos rfl] at hm
      simp at hm
      subst hm
      rw [if_neg (Ne.symm hij)]
      simp
    · rw [if_neg hi0] at hm
      simp at hm

/-- Inversion of a successful `append`. -/
theorem append_some_inv (q : BPQueue) (n : NodeId) (k : Int) (q2 : BPQueue)
    (h : append q n k = some q2) :
    q.offset < k ∧ intToUInt (k - q.offset) < q.bucket.length ∧
    q2 = { q with
      key := updF q.key n (intToUInt (k - q.offset))
      locked := updF q.locked n false
      max := if q.max < intToUInt (k - q.offset) then intToUInt (k - q.offset) else q.max
      bucket := q.bucket.set (intToUInt (k - q.offset))
        (q.bucket.getD (intToUInt (k - q.offset)) [] ++ [n]) } := by
  by_cases hg1 : k ≤ q.offset
  · unfold append at h
    rw [if_pos hg1] at h
    exact absurd h (by simp)
  by_cases hg2 : intToUInt (k - q.offset) < q.bucket.length
  · rw [append_eq q n k (by omega) hg2] at h
    injection h with h
    exact ⟨by omega, hg2, h.symm⟩
  · unfold append at h
    rw [if_neg hg1, if_neg hg2] at h
    exact absurd h (by simp)

/-- Inversion of a successful `appendleft`. -/
theorem appendleft_some_inv (q : BPQueue) (n : NodeId) (k : Int) (q2 : BPQueue)
    (h : appendleft q n k = some q2) :
    q.offset < k ∧ intToUInt (k - q.offset) < q.bucket.length ∧
    q2 = { q with
      key := updF q.key n (intToUInt (k - q.offset))
      locked := updF q.locked n false
      max := if q.max < intToUInt (k - q.offset) then intToUInt (k - q.offset) else q.max
      bucket := q.bucket.set (intToUInt (k - q.offset))
        (n :: q.bucket.getD (intToUInt (k - q.offset)) []) } := by
  by_cases hg1 : k ≤ q.offset
  · unfold appendleft at h
    rw [if_pos hg1] at h
    exact absurd h (by simp)
  by_cases hg2 : intToUInt (k - q.offset) < q.bucket.length
  · rw [appendleft_eq q n k (by omega) hg2] at h
    injection h with h
    exact ⟨by omega, hg2, h.symm⟩
  · unfold appendleft at h
    rw [if_neg hg1, if_neg hg2] at h
    exact absurd h (by simp)

/-! ### The descending iterator sequence and node counting -/

theorem length_canonSeq (f : Nat → List NodeId) (m : Nat) :
    (canonSeq f m).length = (Finset.range m).sum (fun i => (f (i + 1)).length) := by
  induction m with
  | zero => rfl
  | succ m ih =>
    unfold canonSeq
    rw [List.length_append, ih, Finset.sum_range_succ]
    omega

theorem canonSeq_eq_of_empty_above (f : Nat → List NodeId) (m m2 : Nat) (hle : m2 ≤ m)
    (h : ∀ j, m2 < j → j ≤ m → f j = []) : canonSeq f m = canonSeq f m2 := by
  induction m with
  | zero =>
    have : m2 = 0 := by omega
    rw [this]
  | succ m ih =>
    rcases eq_or_ne m2 (m + 1) with rfl | hne
    · rfl
    · have h1 : m2 ≤ m := by omega
      show f (m + 1) ++ canonSeq f m = canonSeq f m2
      rw [h (m + 1) (by omega) (by omega)]
      simp only [List.nil_append]
      exact ih h1 (fun j hj1 hj2 => h j hj1 (by omega))

theorem mem_canonSeq (f : Nat → List NodeId) (m : Nat) (n : NodeId) :
    n ∈ canonSeq f m ↔ ∃ j, 1 ≤ j ∧ j ≤ m ∧ n ∈ f j := by
  induction m with
  | zero =>
    simp only [canonSeq]
    constructor
    · intro h
      simp at h
    · rintro ⟨j, h1, h2, h3⟩
      omega
  | succ m ih =>
    unfold canonSeq
    rw [List.mem_append, ih]
    constructor
    · rintro (h | ⟨j, h1, h2, h3⟩)
      · exact ⟨m + 1, by omega, by omega, h⟩
      · exact ⟨j, h1, by omega, h3⟩
    · rintro ⟨j, h1, h2, h3⟩
      rcases eq_or_ne j (m + 1) with rfl | hne
      · exact Or.inl h3
      · exact Or.inr ⟨j, h1, by omega, h3⟩

theorem sum_bump (h : Nat) (f g : Nat → Nat) (i0 : Nat) (hi : i0 < h)
    (heq : ∀ i < h, i ≠ i0 → g i = f i) (hbump : g i0 = f i0 + 1) :
    (Finset.range h).sum g = (Finset.range h).sum f + 1 := by
  have hcong : ∀ i ∈ Finset.range h, g i = f i + (if i = i0 then 1 else 0) := by
    intro i hmem
    rw [Finset.mem_range] at hmem
    rcases eq_or_ne i i0 with rfl | hne
    · rw [if_pos rfl, hbump]
    · rw [if_neg hne, heq i hmem hne]
      omega
  rw [Finset.sum_congr rfl hcong, Finset.sum_add_distrib,
    Finset.sum_ite_eq' (Finset.range h) i0 (fun _ => 1),
    if_pos (Finset.mem_range.mpr hi)]

/-- Under the invariant, the descending iterator visits exactly
`contentCount q` nodes. -/
theorem contentCount_toListDesc (q : BPQueue) (hw : WF q) :
    (toListDesc q).length = contentCount q := by
  obtain ⟨hlen, hM, hb0, hmax, habove, hne, hkeys, hnodup, hdisj⟩ := hw
  unfold toListDesc contentCount
  rw [length_canonSeq]
  refine Finset.sum_subset (Finset.range_subset.mpr hmax) ?_
  intro i hmem hnot
  rw [Finset.mem_range] at hmem
  rw [Finset.mem_range] at hnot
  rw [habove (i + 1) (by omega) (by omega)]
  rfl

/-- Under the invariant, the descending iterator visits exactly the
queued nodes. -/
theorem mem_toListDesc (q : BPQueue) (hw : WF q) (n : NodeId) :
    n ∈ toListDesc q ↔ queued q n := by
  obtain ⟨hlen, hM, hb0, hmax, habove, hne, hkeys, hnodup, hdisj⟩ := hw
  unfold toListDesc queued
  rw [mem_canonSeq]
  constructor
  · rintro ⟨j, h1, h2, h3⟩
    exact ⟨j, by omega, by omega, h3⟩
  · rintro ⟨j, hj, h0, h3⟩
    refine ⟨j, by omega, ?_, h3⟩
    by_contra hc
    rw [habove j hj (by omega)] at h3
    simp at h3

theorem sum_move (h : Nat) (f g : Nat → Nat) (i0 i1 : Nat)
    (hi0 : i0 < h) (hi1 : i1 < h) (hne : i0 ≠ i1)
    (heq : ∀ i < h, i ≠ i0 → i ≠ i1 → g i = f i)
    (hdrop : g i0 + 1 = f i0) (hbump : g i1 = f i1 + 1) :
    (Finset.range h).sum g = (Finset.range h).sum f := by
  have h1 : (Finset.range h).sum f =
      (Finset.range h).sum (fun i => if i = i0 then g i0 else f i) + 1 := by
    refine sum_bump h (fun i => if i = i0 then g i0 else f i) f i0 hi0 ?_ ?_
    · intro i hi hne2
      show f i = if i = i0 then g i0 else f i
      rw [if_neg hne2]
    · show f i0 = (if i0 = i0 then g i0 else f i0) + 1
      rw [if_pos rfl]
      omega
  have h2 : (Finset.range h).sum g =
      (Finset.range h).sum (fun i => if i = i0 then g i0 else f i) + 1 := by
    refine sum_bump h (fun i => if i = i0 then g i0 else f i) g i1 hi1 ?_ ?_
    · intro i hi hne2
      show g i = if i = i0 then g i0 else f i
      rcases eq_or_ne i i0 with rfl | hne3
      · rw [if_pos rfl]
      · rw [if_neg hne3]
        exact heq i hi hne3 hne2
    · show g i1 = (if i1 = i0 then g i0 else f i1) + 1
      rw [if_neg (Ne.symm hne)]
      exact hbump
  omega

theorem contentCount_succ_of (q q2 : BPQueue) (k : Nat)
    (hh : q2.high = q.high) (hk1 : 1 ≤ k) (hk2 : k ≤ q.high)
    (hag : ∀ j, 1 ≤ j → j ≤ q.high → j ≠ k → bucketAt q2 j = bucketAt q j)
    (hbump : (bucketAt q2 k).length = (bucketAt q k).length + 1) :
    contentCount q2 = contentCount q + 1 := by
  unfold contentCount
  rw [hh]
  refine sum_bump q.high _ _ (k - 1) (by omega) ?_ ?_
  · intro i hi hne
    rw [hag (i + 1) (by omega) (by omega) (by omega)]
  · have hk : k - 1 + 1 = k := by omega
    rw [hk, hbump]

theorem contentCount_pred_of (q q2 : BPQueue) (k : Nat)
    (hh : q2.high = q.high) (hk1 : 1 ≤ k) (hk2 : k ≤ q.high)
    (hag : ∀ j, 1 ≤ j → j ≤ q.high → j ≠ k → bucketAt q2 j = bucketAt q j)
    (hdrop : (bucketAt q2 k).length + 1 = (bucketAt q k).length) :
    contentCount q2 + 1 = contentCount q := by
  unfold contentCount
  rw [hh]
  refine (sum_bump q.high _ _ (k - 1) (by omega) ?_ ?_).symm
  · intro i hi hne
    rw [hag (i + 1) (by omega) (by omega) (by omega)]
  · have hk : k - 1 + 1 = k := by omega
    rw [hk]
    omega

theorem contentCount_move_of (q q2 : BPQueue) (k0 k2 : Nat)
    (hh : q2.high = q.high)
    (hk0a : 1 ≤ k0) (hk0b : k0 ≤ q.high) (hk2a : 1 ≤ k2) (hk2b : k2 ≤ q.high)
    (hne : k0 ≠ k2)
    (hag : ∀ j, 1 ≤ j → j ≤ q.high → j ≠ k0 → j ≠ k2 → bucketAt q2 j = bucketAt q j)
    (hdrop : (bucketAt q2 k0).length + 1 = (bucketAt q k0).length)
    (hbump : (bucketAt q2 k2).length = (bucketAt q k2).length + 1) :
    contentCount q2 = contentCount q := by
  unfold contentCount
  rw [hh]
  refine sum_move q.high _ _ (k0 - 1) (k2 - 1) (by omega) (by omega) (by omega) ?_ ?_ ?_
  · intro i hi hne0 hne2
    rw [hag (i + 1) (by omega) (by omega) (by omega) (by omega)]
  · have hk : k0 - 1 + 1 = k0 := by omega
    rw [hk]
    omega
  · have hk : k2 - 1 + 1 = k2 := by omega
    rw [hk, hbump]

theorem contentCount_clear (q : BPQueue) (hw : WF q) : contentCount (clear q) = 0 := by
  obtain ⟨hlen, hM, hb0, hmax, habove, hne, hkeys, hnodup, hdisj⟩ := hw
  unfold contentCount
  refine Finset.sum_eq_zero ?_
  intro i hmem
  have hm2 : i < q.high := by
    rw [Finset.mem_range] at hmem
    exact hmem
  show (bucketAt (clear q) (i + 1)).length = 0
  show ((clearBuckets q.bucket q.max).getD (i + 1) []).length = 0
  rw [getD_clearBuckets]
  by_cases hc : 1 ≤ i + 1 ∧ i + 1 ≤ q.max ∧ i + 1 < q.bucket.length
  · rw [if_pos hc]
    rfl
  · rw [if_neg hc]
    show (bucketAt q (i + 1)).length = 0
    rw [habove (i + 1) (by omega) (by omega)]
    rfl

theorem append_count (q : BPQueue) (n : NodeId) (k : Int) (q2 : BPQueue)
    (hw : WF q) (hwrap : k - q.offset < (uintMod : Int))
    (h : append q n k = some q2) : contentCount q2 = contentCount q + 1 := by
  obtain ⟨hg1, hg2, hq2⟩ := append_some_inv q n k q2 h
  subst hq2
  obtain ⟨hik1, hik2⟩ := ik_bounds q k hw hg1 hwrap hg2
  refine contentCount_succ_of q _ (intToUInt (k - q.offset)) rfl hik1 hik2 ?_ ?_
  · intro j h1 h2 h3
    show (q.bucket.set (intToUInt (k - q.offset))
      (q.bucket.getD (intToUInt (k - q.offset)) [] ++ [n])).getD j [] = bucketAt q j
    exact getD_set_ne _ _ _ _ (Ne.symm h3)
  · show ((q.bucket.set (intToUInt (k - q.offset))
      (q.bucket.getD (intToUInt (k - q.offset)) [] ++ [n])).getD
        (intToUInt (k - q.offset)) []).length = (bucketAt q (intToUInt (k - q.offset))).length + 1
    rw [getD_set_self _ _ _ hg2]
    simp [bucketAt]

theorem appendleft_count (q : BPQueue) (n : NodeId) (k : Int) (q2 : BPQueue)
    (hw : WF q) (hwrap : k - q.offset < (uintMod : Int))
    (h : appendleft q n k = some q2) : contentCount q2 = contentCount q + 1 := by
  obtain ⟨hg1, hg2, hq2⟩ := appendleft_some_inv q n k q2 h
  subst hq2
  obtain ⟨hik1, hik2⟩ := ik_bounds q k hw hg1 hwrap hg2
  refine contentCount_succ_of q _ (intToUInt (k - q.offset)) rfl hik1 hik2 ?_ ?_
  · intro j h1 h2 h3
    show (q.bucket.set (intToUInt (k - q.offset))
      (n :: q.bucket.getD (intToUInt (k - q.offset)) [])).getD j [] = bucketAt q j
    exact getD_set_ne _ _ _ _ (Ne.symm h3)
  · show ((q.bucket.set (intToUInt (k - q.offset))
      (n :: q.bucket.getD (intToUInt (k - q.offset)) [])).getD
        (intToUInt (k - q.offset)) []).length = (bucketAt q (intToUInt (k - q.offset))).length + 1
    rw [getD_set_self _ _ _ hg2]
    simp [bucketAt]

theorem increase_key_count (q : BPQueue) (n : NodeId) (d : Nat) (q2 : BPQueue)
    (hw : WF q) (hq : queued q n) (hd : 0 < d) (hhi : q.key n + d ≤ q.high)
    (h : increase_key q n d = some q2) : contentCount q2 = contentCount q := by
  obtain ⟨h0k, hklt, hkmem, hns', hl⟩ := queued_key q hw n hq
  have honly := mem_only_at_key q hw n hq
  have hw0 := hw
  obtain ⟨hlen, hM, hb0, hmax, habove, hne, hkeys, hnodup, hdisj⟩ := hw
  obtain ⟨heq, hE, hwf⟩ := increase_key_spec q n d hw0 hq hd hhi
  rw [heq] at h
  injection h with h
  subst h
  refine contentCount_move_of q _ (q.key n) (q.key n + d) rfl (by omega) (by omega)
    (by omega) (by omega) (by omega) ?_ ?_ ?_
  · intro j h1 h2 h3 h4
    show ((eraseAll q.bucket n).set (q.key n + d)
      (n :: (eraseAll q.bucket n).getD (q.key n + d) [])).getD j [] = bucketAt q j
    rw [getD_set_ne _ _ _ _ (Ne.symm h4), getD_eraseAll]
    exact List.erase_of_not_mem (honly j h3)
  · show (((eraseAll q.bucket n).set (q.key n + d)
      (n :: (eraseAll q.bucket n).getD (q.key n + d) [])).getD (q.key n) []).length + 1 =
      (bucketAt q (q.key n)).length
    rw [getD_set_ne _ _ _ _ (by omega), getD_eraseAll]
    have hle := List.length_erase_of_mem hkmem
    have hpos : 0 < (bucketAt q (q.key n)).length := List.length_pos.mpr (by
      intro hc
      rw [hc] at hkmem
      simp at hkmem)
    show ((bucketAt q (q.key n)).erase n).length + 1 = (bucketAt q (q.key n)).length
    omega
  · show (((eraseAll q.bucket n).set (q.key n + d)
      (n :: (eraseAll q.bucket n).getD (q.key n + d) [])).getD (q.key n + d) []).length =
      (bucketAt q (q.key n + d)).length + 1
    rw [getD_set_self _ _ _ (by rw [length_eraseAll]; omega), hE]
    simp

theorem decrease_key_count (q : BPQueue) (n : NodeId) (d : Nat) (q2 : BPQueue)
    (hw : WF q) (hq : queued q n) (hd : 0 < d) (hlo : d < q.key n)
    (h : decrease_key q n d = some q2) : contentCount q2 = contentCount q := by
  obtain ⟨h0k, hklt, hkmem, hns', hl⟩ := queued_key q hw n hq
  have honly := mem_only_at_key q hw n hq
  have hw0 := hw
  obtain ⟨hlen, hM, hb0, hmax, habove, hne, hkeys, hnodup, hdisj⟩ := hw
  obtain ⟨m2, hm2, hge, hle, heq, hE, hwf⟩ := decrease_key_spec q n d hw0 hq hd hlo
  rw [heq] at h
  injection h with h
  subst h
  refine contentCount_move_of q _ (q.key n) (q.key n - d) rfl (by omega) (by omega)
    (by omega) (by omega) (by omega) ?_ ?_ ?_
  · intro j h1 h2 h3 h4
    show ((eraseAll q.bucket n).set (q.key n - d)
      ((eraseAll q.bucket n).getD (q.key n - d) [] ++ [n])).getD j [] = bucketAt q j
    rw [getD_set_ne _ _ _ _ (Ne.symm h4), getD_eraseAll]
    exact List.erase_of_not_mem (honly j h3)
  · show (((eraseAll q.bucket n).set (q.key n - d)
      ((eraseAll q.bucket n).getD (q.key n - d) [] ++ [n])).getD (q.key n) []).length + 1 =
      (bucketAt q (q.key n)).length
    rw [getD_set_ne _ _ _ _ (by omega), getD_eraseAll]
    have hle2 := List.length_erase_of_mem hkmem
    have hpos : 0 < (bucketAt q (q.key n)).length := List.length_pos.mpr (by
      intro hc
      rw [hc] at hkmem
      simp at hkmem)
    show ((bucketAt q (q.key n)).erase n).length + 1 = (bucketAt q (q.key n)).length
    omega
  · show (((eraseAll q.bucket n).set (q.key n - d)
      ((eraseAll q.bucket n).getD (q.key n - d) [] ++ [n])).getD (q.key n - d) []).length =
      (bucketAt q (q.key n - d)).length + 1
    rw [getD_set_self _ _ _ (by rw [length_eraseAll]; omega), hE]
    simp

theorem detach_count (q : BPQueue) (n : NodeId) (q2 : BPQueue)
    (hw : WF q) (hq : queued q n) (hns : n ≠ sentinelId)
    (h : detach q n = some q2) : contentCount q2 + 1 = contentCount q := by
  obtain ⟨h0k, hklt, hkmem, hns', hl⟩ := queued_key q hw n hq
  have honly := mem_only_at_key q hw n hq
  have hw0 := hw
  obtain ⟨hlen, hM, hb0, hmax, habove, hne, hkeys, hnodup, hdisj⟩ := hw
  obtain ⟨m2, hm2, heq, hwf⟩ := detach_spec q n hw0 hq hns
  rw [heq] at h
  injection h with h
  subst h
  refine contentCount_pred_of q _ (q.key n) rfl (by omega) (by omega) ?_ ?_
  · intro j h1 h2 h3
    show (eraseAll q.bucket n).getD j [] = bucketAt q j
    rw [getD_eraseAll]
    exact List.erase_of_not_mem (honly j h3)
  · show ((eraseAll q.bucket n).getD (q.key n) []).length + 1 = (bucketAt q (q.key n)).length
    rw [getD_eraseAll]
    have hle2 := List.length_erase_of_mem hkmem
    have hpos : 0 < (bucketAt q (q.key n)).length := List.length_pos.mpr (by
      intro hc
      rw [hc] at hkmem
      simp at hkmem)
    show ((bucketAt q (q.key n)).erase n).length + 1 = (bucketAt q (q.key n)).length
    omega

theorem popleft_count (q : BPQueue) (q2 : BPQueue)
    (hw : WF q) (h : (popleft q).map Prod.snd = some q2) :
    contentCount q2 + 1 = contentCount q := by
  have hw0 := hw
  obtain ⟨hlen, hM, hb0, hmax, habove, hne, hkeys, hnodup, hdisj⟩ := hw
  rcases Nat.eq_zero_or_pos q.max with hm | hm
  · rw [popleft_empty_none q hw0 hm] at h
    exact absurd h (by simp)
  · obtain ⟨n, rest, m2, hcons, hscan, heq, hwf⟩ := popleft_spec q hw0 hm
    rw [heq] at h
    simp only [Option.map_some'] at h
    injection h with h
    subst h
    refine contentCount_pred_of q _ q.max rfl (by omega) hmax ?_ ?_
    · intro j h1 h2 h3
      show (q.bucket.set q.max rest).getD j [] = bucketAt q j
      exact getD_set_ne _ _ _ _ (by omega)
    · show ((q.bucket.set q.max rest).getD q.max []).length + 1 = (bucketAt q q.max).length
      rw [getD_set_self _ _ _ (by omega), hcons]
      simp

theorem canonSeq_congr (f g : Nat → List NodeId) (m : Nat)
    (h : ∀ j, 1 ≤ j → j ≤ m → f j = g j) : canonSeq f m = canonSeq g m := by
  induction m with
  | zero => rfl
  | succ m ih =>
    show f (m + 1) ++ canonSeq f m = g (m + 1) ++ canonSeq g m
    rw [h (m + 1) (by omega) (by omega), ih (fun j h1 h2 => h j h1 (by omega))]

theorem canonSeq_decompose (f : Nat → List NodeId) (m j : Nat)
    (h1 : 1 ≤ j) (h2 : j ≤ m) :
    ∃ pre, canonSeq f m = pre ++ f j ++ canonSeq f (j - 1) := by
  induction m with
  | zero => omega
  | succ m ih =>
    rcases eq_or_ne j (m + 1) with rfl | hne
    · refine ⟨[], ?_⟩
      show f (m + 1) ++ canonSeq f m = [] ++ f (m + 1) ++ canonSeq f (m + 1 - 1)
      simp
    · obtain ⟨pre, hpre⟩ := ih (by omega)
      refine ⟨f (m + 1) ++ pre, ?_⟩
      show f (m + 1) ++ canonSeq f m = f (m + 1) ++ pre ++ f j ++ canonSeq f (j - 1)
      rw [hpre]
      simp [List.append_assoc]

/-- Draining a well-formed queue by repeated `popleft` yields exactly
the descending-iterator sequence. -/
theorem drainAux_eq_toListDesc (fuel : Nat) (q : BPQueue) (hw : WF q)
    (hfuel : contentCount q ≤ fuel) : drainAux fuel q = toListDesc q := by
  induction fuel generalizing q with
  | zero =>
    have hc : contentCount q = 0 := by omega
    have hlen2 : (toListDesc q).length = 0 := by
      rw [contentCount_toListDesc q hw, hc]
    have : toListDesc q = [] := List.length_eq_zero.mp hlen2
    rw [this]
    rfl
  | succ fuel ih =>
    unfold drainAux
    by_cases he : is_empty q
    · rw [if_pos he]
      have hm : q.max = 0 := by simpa [is_empty] using he
      unfold toListDesc
      rw [hm]
      rfl
    · rw [if_neg he]
      have hm : 0 < q.max := by
        rcases Nat.eq_zero_or_pos q.max with h0 | h0
        · exact absurd (by simpa [is_empty] using h0) he
        · exact h0
      obtain ⟨n, rest, m2, hcons, hscan, heq, hwf⟩ := popleft_spec q hw hm
      rw [heq]
      dsimp only
      obtain ⟨hm2le, hm2ne, hm2emp⟩ := scanMax_spec _ _ _ hscan
      have hcount : contentCount { q with bucket := q.bucket.set q.max rest, max := m2 } + 1 =
          contentCount q :=
        popleft_count q _ hw (by rw [heq]; rfl)
      have hwq := hw
      obtain ⟨hlen, hM, hb0, hmax, habove, hne, hkeys, hnodup, hdisj⟩ := hwq
      obtain ⟨mm, hmm⟩ : ∃ mm, q.max = mm + 1 := ⟨q.max - 1, by omega⟩
      rw [ih _ hwf (by omega)]
      have hcon : canonSeq (fun t => (q.bucket.set q.max rest).getD t []) mm =
          canonSeq (bucketAt q) mm :=
        canonSeq_congr _ _ mm (fun j hj1 hj2 => getD_set_ne _ _ _ _ (by omega))
      have hstep1 : toListDesc { q with bucket := q.bucket.set q.max rest, max := m2 } =
          rest ++ canonSeq (bucketAt q) mm := by
        show canonSeq (fun t => (q.bucket.set q.max rest).getD t []) m2 =
          rest ++ canonSeq (bucketAt q) mm
        have e1 : canonSeq (fun t => (q.bucket.set q.max rest).getD t []) m2 =
            canonSeq (fun t => (q.bucket.set q.max rest).getD t []) (mm + 1) := by
          refine (canonSeq_eq_of_empty_above _ (mm + 1) m2 (by omega) ?_).symm
          intro j hj1 hj2
          exact hm2emp j hj1 (by omega)
        rw [e1]
        show (q.bucket.set q.max rest).getD (mm + 1) [] ++
          canonSeq (fun t => (q.bucket.set q.max rest).getD t []) mm =
          rest ++ canonSeq (bucketAt q) mm
        rw [show (q.bucket.set q.max rest).getD (mm + 1) [] = rest from by
          rw [← hmm]
          exact getD_set_self _ _ _ (by omega), hcon]
      have hstep2 : toListDesc q = n :: (rest ++ canonSeq (bucketAt q) mm) := by
        unfold toListDesc
        rw [hmm]
        show bucketAt q (mm + 1) ++ canonSeq (bucketAt q) mm = _
        rw [show bucketAt q (mm + 1) = n :: rest from by rw [← hmm]; exact hcons]
        simp
      rw [hstep1, hstep2]

theorem drainAll_eq_toListDesc (q : BPQueue) (hw : WF q) : drainAll q = toListDesc q :=
  drainAux_eq_toListDesc (contentCount q) q hw (le_refl _)

/-! ### Bookkeeping for sequences of insertions -/

theorem mem_appNodes (ops : List InsOp) (k : Int) (m : NodeId) :
    m ∈ appNodes ops k ↔ InsOp.app m k ∈ ops := by
  unfold appNodes
  rw [List.mem_filterMap]
  constructor
  · rintro ⟨op, hop, hf⟩
    cases op with
    | app n g =>
      dsimp only at hf
      by_cases hc : g = k
      · rw [if_pos hc] at hf
        injection hf with hf
        subst hf
        subst hc
        exact hop
      · rw [if_neg hc] at hf
        exact absurd hf (by simp)
    | appl n g => exact absurd hf (by simp)
  · intro hop
    refine ⟨.app m k, hop, ?_⟩
    show (if k = k then some m else none) = some m
    rw [if_pos rfl]

theorem mem_apLeftNodes (ops : List InsOp) (k : Int) (m : NodeId) :
    m ∈ apLeftNodes ops k ↔ InsOp.appl m k ∈ ops := by
  unfold apLeftNodes
  rw [List.mem_filterMap]
  constructor
  · rintro ⟨op, hop, hf⟩
    cases op with
    | appl n g =>
      dsimp only at hf
      by_cases hc : g = k
      · rw [if_pos hc] at hf
        injection hf with hf
        subst hf
        subst hc
        exact hop
      · rw [if_neg hc] at hf
        exact absurd hf (by simp)
    | app n g => exact absurd hf (by simp)
  · intro hop
    refine ⟨.appl m k, hop, ?_⟩
    show (if k = k then some m else none) = some m
    rw [if_pos rfl]

theorem mem_appNodesI (off : Int) (ops : List InsOp) (j : Nat) (m : NodeId) :
    m ∈ appNodesI off ops j ↔ ∃ g, InsOp.app m g ∈ ops ∧ intToUInt (g - off) = j := by
  unfold appNodesI
  rw [List.mem_filterMap]
  constructor
  · rintro ⟨op, hop, hf⟩
    cases op with
    | app n g =>
      dsimp only at hf
      by_cases hc : intToUInt (g - off) = j
      · rw [if_pos hc] at hf
        injection hf with hf
        subst hf
        exact ⟨g, hop, hc⟩
      · rw [if_neg hc] at hf
        exact absurd hf (by simp)
    | appl n g => exact absurd hf (by simp)
  · rintro ⟨g, hop, hc⟩
    refine ⟨.app m g, hop, ?_⟩
    show (if intToUInt (g - off) = j then some m else none) = some m
    rw [if_pos hc]

theorem mem_apLeftNodesI (off : Int) (ops : List InsOp) (j : Nat) (m : NodeId) :
    m ∈ apLeftNodesI off ops j ↔ ∃ g, InsOp.appl m g ∈ ops ∧ intToUInt (g - off) = j := by
  unfold apLeftNodesI
  rw [List.mem_filterMap]
  constructor
  · rintro ⟨op, hop, hf⟩
    cases op with
    | appl n g =>
      dsimp only at hf
      by_cases hc : intToUInt (g - off) = j
      · rw [if_pos hc] at hf
        injection hf with hf
        subst hf
        exact ⟨g, hop, hc⟩
      · rw [if_neg hc] at hf
        exact absurd hf (by simp)
    | app n g => exact absurd hf (by simp)
  · rintro ⟨g, hop, hc⟩
    refine ⟨.appl m g, hop, ?_⟩
    show (if intToUInt (g - off) = j then some m else none) = some m
    rw [if_pos hc]

theorem appNodesI_append (off : Int) (ops1 ops2 : List InsOp) (j : Nat) :
    appNodesI off (ops1 ++ ops2) j = appNodesI off ops1 j ++ appNodesI off ops2 j :=
  List.filterMap_append _ _ _

theorem apLeftNodesI_append (off : Int) (ops1 ops2 : List InsOp) (j : Nat) :
    apLeftNodesI off (ops1 ++ ops2) j = apLeftNodesI off ops1 j ++ apLeftNodesI off ops2 j :=
  List.filterMap_append _ _ _

theorem appNodesI_single_app (off : Int) (n : NodeId) (k : Int) (j : Nat) :
    appNodesI off [InsOp.app n k] j = if intToUInt (k - off) = j then [n] else [] := by
  by_cases hc : intToUInt (k - off) = j
  · rw [if_pos hc]
    simp [appNodesI, hc]
  · rw [if_neg hc]
    simp [appNodesI, hc]

theorem appNodesI_single_appl (off : Int) (n : NodeId) (k : Int) (j : Nat) :
    appNodesI off [InsOp.appl n k] j = [] := rfl

theorem apLeftNodesI_single_appl (off : Int) (n : NodeId) (k : Int) (j : Nat) :
    apLeftNodesI off [InsOp.appl n k] j = if intToUInt (k - off) = j then [n] else [] := by
  by_cases hc : intToUInt (k - off) = j
  · rw [if_pos hc]
    simp [apLeftNodesI, hc]
  · rw [if_neg hc]
    simp [apLeftNodesI, hc]

theorem apLeftNodesI_single_app (off : Int) (n : NodeId) (k : Int) (j : Nat) :
    apLeftNodesI off [InsOp.app n k] j = [] := rfl

/-- On keys inside a range that fits the unsigned type, the internal
translation is injective. -/
theorem internal_inj (a b g k : Int) (hsz : b - a + 1 < (uintMod : Int))
    (hg1 : a ≤ g) (hg2 : g ≤ b) (hk1 : a ≤ k) (hk2 : k ≤ b) :
    intToUInt (g - (a - 1)) = intToUInt (k - (a - 1)) ↔ g = k := by
  rw [intToUInt_of_nonneg _ (by omega) (by omega),
    intToUInt_of_nonneg _ (by omega) (by omega)]
  omega

theorem queued_of_bucket_set (q q2 : BPQueue) (ik : Nat) (x : List NodeId) (n : NodeId)
    (hb : q2.bucket = q.bucket.set ik x)
    (hxmem : ∀ m, m ∈ x → m = n ∨ m ∈ bucketAt q ik)
    (hiklen : ik < q.bucket.length)
    (m : NodeId) (hm : queued q2 m) : m = n ∨ queued q m := by
  obtain ⟨j, hj, h0, hmem⟩ := hm
  rw [hb, List.length_set] at hj
  unfold bucketAt at hmem
  rw [hb] at hmem
  rcases eq_or_ne j ik with rfl | hne
  · rw [getD_set_self _ _ _ hiklen] at hmem
    rcases hxmem m hmem with rfl | hmo
    · exact Or.inl rfl
    · exact Or.inr ⟨j, hiklen, h0, hmo⟩
  · rw [getD_set_ne _ _ _ _ (Ne.symm hne)] at hmem
    exact Or.inr ⟨j, hj, h0, hmem⟩

/-- Soundness of a batch of insertions: the run succeeds and each
content bucket holds the `appendleft`-inserted nodes of its key in
reverse call order followed by the `append`-inserted nodes in call
order. -/
theorem applyIns_sound (a b : Int) (ops : List InsOp) :
    ∀ (done : List InsOp) (q : BPQueue),
    WF q → q.offset = a - 1 → q.high = (b - (a - 1)).toNat → a ≤ b →
    b - a + 1 < (uintMod : Int) →
    (∀ j, 1 ≤ j → j ≤ q.high →
      bucketAt q j = (apLeftNodesI (a - 1) done j).reverse ++ appNodesI (a - 1) done j) →
    (∀ op ∈ ops, a ≤ op.gain ∧ op.gain ≤ b) →
    (∀ op ∈ ops, op.node ≠ sentinelId ∧ ¬queued q op.node) →
    (ops.map InsOp.node).Nodup →
    ∃ q2, applyIns q ops = some q2 ∧ WF q2 ∧ q2.offset = a - 1 ∧
      q2.high = (b - (a - 1)).toNat ∧
      (∀ j, 1 ≤ j → j ≤ q2.high →
        bucketAt q2 j = (apLeftNodesI (a - 1) (done ++ ops) j).reverse ++
          appNodesI (a - 1) (done ++ ops) j) := by
  induction ops with
  | nil =>
    intro done q hw hoff hhigh hab hsz hchar hrange hnode hnd
    refine ⟨q, rfl, hw, hoff, hhigh, ?_⟩
    simpa using hchar
  | cons op rest ih =>
    intro done q hw hoff hhigh hab hsz hchar hrange hnode hnd
    have hw0 := hw
    obtain ⟨hlen, hM, hb0, hmax, habove, hne2, hkeys, hnodup, hdisj⟩ := hw
    cases op with
    | app n k =>
      have hg1 : a ≤ k := (hrange (.app n k) (by simp)).1
      have hg2 : k ≤ b := (hrange (.app n k) (by simp)).2
      have hns : n ≠ sentinelId := (hnode (.app n k) (by simp)).1
      have hnq : ¬queued q n := (hnode (.app n k) (by simp)).2
      have hwrap : k - q.offset < (uintMod : Int) := by omega
      have hik_val : intToUInt (k - q.offset) = (k - q.offset).toNat :=
        intToUInt_of_nonneg _ (by omega) hwrap
      have hik1 : 1 ≤ intToUInt (k - q.offset) := by
        rw [hik_val]
        omega
      have hikhigh : intToUInt (k - q.offset) ≤ q.high := by
        rw [hik_val, hhigh]
        omega
      have hiklen : intToUInt (k - q.offset) < q.bucket.length := by omega
      have heq := append_eq q n k (by omega) hiklen
      have hwf2 := append_WF q n k _ hw0 hns hnq hwrap heq
      have hoffeq : intToUInt (k - q.offset) = intToUInt (k - (a - 1)) := by
        rw [hoff]
      have hchar2 : ∀ j, 1 ≤ j → j ≤ q.high →
          (q.bucket.set (intToUInt (k - q.offset))
            (q.bucket.getD (intToUInt (k - q.offset)) [] ++ [n])).getD j [] =
          (apLeftNodesI (a - 1) (done ++ [.app n k]) j).reverse ++
            appNodesI (a - 1) (done ++ [.app n k]) j := by
        intro j hj1 hj2
        rw [apLeftNodesI_append, apLeftNodesI_single_app, appNodesI_append,
          appNodesI_single_app]
        rcases eq_or_ne (intToUInt (k - (a - 1))) j with heqj | hnej
        · rw [if_pos heqj, ← heqj, ← hoffeq, getD_set_self _ _ _ hiklen]
          have := hchar (intToUInt (k - q.offset)) hik1 hikhigh
          unfold bucketAt at this
          rw [this, hoffeq]
          simp [List.append_assoc]
        · rw [if_neg hnej, getD_set_ne _ _ _ _ (by rw [hoffeq]; exact hnej)]
          have := hchar j hj1 hj2
          unfold bucketAt at this
          rw [this]
          simp
      have hnodrest : ∀ op2 ∈ rest, op2.node ≠ sentinelId ∧
          ¬queued { q with
            key := updF q.key n (intToUInt (k - q.offset))
            locked := updF q.locked n false
            max := if q.max < intToUInt (k - q.offset) then intToUInt (k - q.offset) else q.max
            bucket := q.bucket.set (intToUInt (k - q.offset))
              (q.bucket.getD (intToUInt (k - q.offset)) [] ++ [n]) } op2.node := by
        intro op2 hop2
        refine ⟨(hnode op2 (by simp [hop2])).1, ?_⟩
        intro hq2
        have hor := queued_of_bucket_set q _ (intToUInt (k - q.offset))
          (q.bucket.getD (intToUInt (k - q.offset)) [] ++ [n]) n rfl
          (by intro m hm; simpa [bucketAt, or_comm] using hm) hiklen op2.node hq2
        rcases hor with heq2 | hq3
        · have : n ∉ rest.map InsOp.node := by
            have := hnd
            simp only [List.map_cons, List.nodup_cons] at this
            exact this.1
          exact this (by rw [← heq2]; exact List.mem_map_of_mem _ hop2)
        · exact (hnode op2 (by simp [hop2])).2 hq3
      obtain ⟨q2, happ2, hwf3, hoff3, hhigh3, hchar3⟩ := ih (done ++ [InsOp.app n k]) _
        hwf2 hoff hhigh hab hsz hchar2
        (fun op2 hop2 => hrange op2 (by simp [hop2])) hnodrest
        (by
          have := hnd
          simp only [List.map_cons, List.nodup_cons] at this
          exact this.2)
      refine ⟨q2, ?_, hwf3, hoff3, hhigh3, ?_⟩
      · show (append q n k).bind (fun q3 => applyIns q3 rest) = some q2
        rw [heq]
        exact happ2
      · intro j hj1 hj2
        rw [show done ++ InsOp.app n k :: rest = (done ++ [InsOp.app n k]) ++ rest by simp]
        exact hchar3 j hj1 hj2
    | appl n k =>
      have hg1 : a ≤ k := (hrange (.appl n k) (by simp)).1
      have hg2 : k ≤ b := (hrange (.appl n k) (by simp)).2
      have hns : n ≠ sentinelId := (hnode (.appl n k) (by simp)).1
      have hnq : ¬queued q n := (hnode (.appl n k) (by simp)).2
      have hwrap : k - q.offset < (uintMod : Int) := by omega
      have hik_val : intToUInt (k - q.offset) = (k - q.offset).toNat :=
        intToUInt_of_nonneg _ (by omega) hwrap
      have hik1 : 1 ≤ intToUInt (k - q.offset) := by
        rw [hik_val]
        omega
      have hikhigh : intToUInt (k - q.offset) ≤ q.high := by
        rw [hik_val, hhigh]
        omega
      have hiklen : intToUInt (k - q.offset) < q.bucket.length := by omega
      have heq := appendleft_eq q n k (by omega) hiklen
      have hwf2 := appendleft_WF q n k _ hw0 hns hnq hwrap heq
      have hoffeq : intToUInt (k - q.offset) = intToUInt (k - (a - 1)) := by
        rw [hoff]
      have hchar2 : ∀ j, 1 ≤ j → j ≤ q.high →
          (q.bucket.set (intToUInt (k - q.offset))
            (n :: q.bucket.getD (intToUInt (k - q.offset)) [])).getD j [] =
          (apLeftNodesI (a - 1) (done ++ [.appl n k]) j).reverse ++
            appNodesI (a - 1) (done ++ [.appl n k]) j := by
        intro j hj1 hj2
        rw [apLeftNodesI_append, apLeftNodesI_single_appl, appNodesI_append,
          appNodesI_single_appl]
        rcases eq_or_ne (intToUInt (k - (a - 1))) j with heqj | hnej
        · rw [if_pos heqj, ← heqj, ← hoffeq, getD_set_self _ _ _ hiklen]
          have := hchar (intToUInt (k - q.offset)) hik1 hikhigh
          unfold bucketAt at this
          rw [this, hoffeq]
          simp [List.append_assoc]
        · rw [if_neg hnej, getD_set_ne _ _ _ _ (by rw [hoffeq]; exact hnej)]
          have := hchar j hj1 hj2
          unfold bucketAt at this
          rw [this]
          simp
      have hnodrest : ∀ op2 ∈ rest, op2.node ≠ sentinelId ∧
          ¬queued { q with
            key := updF q.key n (intToUInt (k - q.offset))
            locked := updF q.locked n false
            max := if q.max < intToUInt (k - q.offset) then intToUInt (k - q.offset) else q.max
            bucket := q.bucket.set (intToUInt (k - q.offset))
              (n :: q.bucket.getD (intToUInt (k - q.offset)) []) } op2.node := by
        intro op2 hop2
        refine ⟨(hnode op2 (by simp [hop2])).1, ?_⟩
        intro hq2
        have hor := queued_of_bucket_set q _ (intToUInt (k - q.offset))
          (n :: q.bucket.getD (intToUInt (k - q.offset)) []) n rfl
          (by intro m hm; simpa [bucketAt] using hm) hiklen op2.node hq2
        rcases hor with heq2 | hq3
        · have : n ∉ rest.map InsOp.node := by
            have := hnd
            simp only [List.map_cons, List.nodup_cons] at this
            exact this.1
          exact this (by rw [← heq2]; exact List.mem_map_of_mem _ hop2)
        · exact (hnode op2 (by simp [hop2])).2 hq3
      obtain ⟨q2, happ2, hwf3, hoff3, hhigh3, hchar3⟩ := ih (done ++ [InsOp.appl n k]) _
        hwf2 hoff hhigh hab hsz hchar2
        (fun op2 hop2 => hrange op2 (by simp [hop2])) hnodrest
        (by
          have := hnd
          simp only [List.map_cons, List.nodup_cons] at this
          exact this.2)
      refine ⟨q2, ?_, hwf3, hoff3, hhigh3, ?_⟩
      · show (appendleft q n k).bind (fun q3 => applyIns q3 rest) = some q2
        rw [heq]
        exact happ2
      · intro j hj1 hj2
        rw [show done ++ InsOp.appl n k :: rest = (done ++ [InsOp.appl n k]) ++ rest by simp]
        exact hchar3 j hj1 hj2

/-- The iterator sequence is sorted by descending bucket index, hence by
descending effective priority when every node of bucket `j` carries key
`j`. -/
theorem sorted_canonSeq (f : Nat → List NodeId) (key : NodeId → Nat) (off : Int) (m : Nat)
    (hk : ∀ j, 1 ≤ j → j ≤ m → ∀ n ∈ f j, key n = j) :
    List.Sorted (· ≥ ·) ((canonSeq f m).map (fun n => off + (key n : Int))) := by
  induction m with
  | zero => simp [canonSeq]
  | succ m ih =>
    show List.Pairwise (· ≥ ·) ((f (m + 1) ++ canonSeq f m).map (fun n => off + (key n : Int)))
    rw [List.map_append, List.pairwise_append]
    refine ⟨?_, ih (fun j h1 h2 n hn => hk j h1 (by omega) n hn), ?_⟩
    · apply List.pairwise_of_forall_mem_list
      intro x hx y hy
      rw [List.mem_map] at hx hy
      obtain ⟨n1, hn1, rfl⟩ := hx
      obtain ⟨n2, hn2, rfl⟩ := hy
      rw [hk (m + 1) (by omega) (by omega) n1 hn1, hk (m + 1) (by omega) (by omega) n2 hn2]
    · intro x hx y hy
      rw [List.mem_map] at hx hy
      obtain ⟨n1, hn1, rfl⟩ := hx
      obtain ⟨n2, hn2, rfl⟩ := hy
      rw [mem_canonSeq] at hn2
      obtain ⟨j, hj1, hj2, hj3⟩ := hn2
      rw [hk (m + 1) (by omega) (by omega) n1 hn1, hk j hj1 (by omega) n2 hj3]
      show off + (j : Int) ≤ off + ((m + 1 : Nat) : Int)
      push_cast
      omega

theorem filter_canonSeq_nil (f : Nat → List NodeId) (m : Nat) (p : NodeId → Bool)
    (h : ∀ j, 1 ≤ j → j ≤ m → ∀ n ∈ f j, p n = false) :
    (canonSeq f m).filter p = [] := by
  induction m with
  | zero => rfl
  | succ m ih =>
    show (f (m + 1) ++ canonSeq f m).filter p = []
    rw [List.filter_append, ih (fun j h1 h2 n hn => h j h1 (by omega) n hn),
      List.append_nil]
    rw [List.filter_eq_nil_iff]
    intro n hn
    rw [h (m + 1) (by omega) (by omega) n hn]
    simp

theorem filter_canonSeq_single (f : Nat → List NodeId) (m : Nat) (p : NodeId → Bool)
    (j0 : Nat) (h1 : 1 ≤ j0) (h2 : j0 ≤ m)
    (h : ∀ j, 1 ≤ j → j ≤ m → j ≠ j0 → ∀ n ∈ f j, p n = false) :
    (canonSeq f m).filter p = (f j0).filter p := by
  induction m with
  | zero => omega
  | succ m ih =>
    show (f (m + 1) ++ canonSeq f m).filter p = (f j0).filter p
    rw [List.filter_append]
    rcases eq_or_ne j0 (m + 1) with rfl | hne
    · rw [filter_canonSeq_nil f m p (fun j hj1 hj2 n hn => h j hj1 (by omega) (by omega) n hn),
        List.append_nil]
    · rw [show (f (m + 1)).filter p = [] from ?_, List.nil_append,
        ih (by omega) (fun j hj1 hj2 hj3 n hn => h j hj1 (by omega) hj3 n hn)]
      rw [List.filter_eq_nil_iff]
      intro n hn
      rw [h (m + 1) (by omega) (by omega) (by omega) n hn]
      simp

/-- Over keys that all fit in the queue's range, the internal filter at
the bucket of external key `k` agrees with the external filter at `k`
(`append` side). -/
theorem appNodesI_eq_appNodes (a b k : Int) (ops : List InsOp)
    (hsz : b - a + 1 < (uintMod : Int)) (hk1 : a ≤ k) (hk2 : k ≤ b)
    (hrange : ∀ op ∈ ops, a ≤ op.gain ∧ op.gain ≤ b) :
    appNodesI (a - 1) ops (intToUInt (k - (a - 1))) = appNodes ops k := by
  unfold appNodesI appNodes
  refine List.filterMap_congr ?_
  intro op hop
  cases op with
  | app n g =>
    have hg1 : a ≤ g := (hrange (.app n g) hop).1
    have hg2 : g ≤ b := (hrange (.app n g) hop).2
    have hiff := internal_inj a b g k hsz hg1 hg2 hk1 hk2
    dsimp only
    simp only [hiff]
  | appl n g => rfl

/-- Over keys that all fit in the queue's range, the internal filter at
the bucket of external key `k` agrees with the external filter at `k`
(`appendleft` side). -/
theorem apLeftNodesI_eq_apLeftNodes (a b k : Int) (ops : List InsOp)
    (hsz : b - a + 1 < (uintMod : Int)) (hk1 : a ≤ k) (hk2 : k ≤ b)
    (hrange : ∀ op ∈ ops, a ≤ op.gain ∧ op.gain ≤ b) :
    apLeftNodesI (a - 1) ops (intToUInt (k - (a - 1))) = apLeftNodes ops k := by
  unfold apLeftNodesI apLeftNodes
  refine List.filterMap_congr ?_
  intro op hop
  cases op with
  | appl n g =>
    have hg1 : a ≤ g := (hrange (.appl n g) hop).1
    have hg2 : g ≤ b := (hrange (.appl n g) hop).2
    have hiff := internal_inj a b g k hsz hg1 hg2 hk1 hk2
    dsimp only
    simp only [hiff]
  | app n g => rfl

/-! ### Claim C7 -/

/-- Claim C7: `Dllink::lock` sets the node's `next` reference to the node
itself; `Dllink::is_locked` returns true exactly when the node's `next`
reference points to the node itself; and `Dllink::detach` takes its
fatal assert path exactly when the node is locked. -/
theorem lock_is_locked_detach (h : Dllink.Heap) (n : NodeId) :
    (Dllink.lock h n).next n = n ∧
    (Dllink.is_locked h n = true ↔ h.next n = n) ∧
    (Dllink.detach h n = none ↔ Dllink.is_locked h n = true) := by
  refine ⟨?_, ?_, ?_⟩
  · simp [Dllink.lock, updF]
  · simp [Dllink.is_locked]
  · unfold Dllink.detach
    by_cases hl : Dllink.is_locked h n = true
    · simp [hl]
    · simp [hl]

/-! ### Claim C4 -/

/-- Claim C4: for `a ≤ b`, a freshly constructed `BPQueue(a, b)` is empty
and `get_max()` returns `a - 1`, a value below the key range; in
general, whenever a queue is empty `get_max()` returns its `offset`
(which the constructor sets to `a - 1`). -/
theorem fresh_queue_empty_get_max (a b : Int) (key0 : NodeId → Nat)
    (locked0 : NodeId → Bool) (hab : a ≤ b) :
    is_empty (mkBPQueue a b key0 locked0) = true ∧
    get_max (mkBPQueue a b key0 locked0) = a - 1 ∧
    a - 1 < a ∧
    (mkBPQueue a b key0 locked0).offset = a - 1 ∧
    (∀ q : BPQueue, is_empty q = true → get_max q = q.offset) := by
  refine ⟨?_, ?_, by omega, rfl, ?_⟩
  · simp [is_empty, mkBPQueue]
  · simp [get_max, mkBPQueue, uintToInt_zero]
  · intro q hq
    have hm : q.max = 0 := by simpa [is_empty] using hq
    simp [get_max, hm, uintToInt_zero]

/-- Instantiation of `fresh_queue_empty_get_max` at the range `[0, 1]`. -/
theorem fresh_queue_empty_get_max_witness :
    (0 : Int) ≤ 1 ∧
    (is_empty (mkBPQueue 0 1 (fun _ => 0) (fun _ => false)) = true ∧
     get_max (mkBPQueue 0 1 (fun _ => 0) (fun _ => false)) = 0 - 1 ∧
     (0 : Int) - 1 < 0 ∧
     (mkBPQueue 0 1 (fun _ => 0) (fun _ => false)).offset = 0 - 1 ∧
     (∀ q : BPQueue, is_empty q = true → get_max q = q.offset)) :=
  ⟨by decide, fresh_queue_empty_get_max 0 1 (fun _ => 0) (fun _ => false) (by decide)⟩

/-! ### Claim C10 -/

/-- Claim C10: `modify_key(node, 0)` is a complete no-op for every node,
locked or not: no assert fires, neither `increase_key` nor
`decrease_key` runs, and the state is returned unchanged. -/
theorem modify_key_zero_noop (q : BPQueue) (n : NodeId) : modify_key q n 0 = some q := by
  unfold modify_key
  by_cases hl : q.locked n <;> simp [hl]

/-! ### Claim C5 -/

/-- Claim C5: on a locked node `modify_key` is a silent no-op returning
the whole state (queue and node fields) unchanged, for every delta; on
an unlocked node it dispatches to `increase_key` for positive delta and
to `decrease_key` for negative delta (with the C++ `UInt` casts of the
delta). -/
theorem modify_key_locked_noop_dispatch :
    (∀ (q : BPQueue) (n : NodeId) (d : Int),
      q.locked n = true → modify_key q n d = some q) ∧
    (∀ (q : BPQueue) (n : NodeId) (d : Int), q.locked n = false →
      (0 < d → modify_key q n d = increase_key q n (intToUInt d)) ∧
      (d < 0 → modify_key q n d = decrease_key q n (intToUInt (-d)))) := by
  constructor
  · intro q n d hl
    simp [modify_key, hl]
  · intro q n d hl
    constructor
    · intro hd
      simp [modify_key, hl, hd]
    · intro hd
      have hd2 : ¬ (0 < d) := by omega
      simp [modify_key, hl, hd, hd2]

/-- Instantiation of `modify_key_locked_noop_dispatch`: the locked node 5
of `sampleLockedQ` is untouched by `modify_key` with delta 7, and on the
unlocked node 1 of `sampleQ` the dispatch equations hold for deltas 1
and -1. -/
theorem modify_key_locked_noop_dispatch_witness :
    (sampleLockedQ.locked 5 = true ∧ modify_key sampleLockedQ 5 7 = some sampleLockedQ) ∧
    (sampleQ.locked 1 = false ∧
      ((0 : Int) < 1 → modify_key sampleQ 1 1 = increase_key sampleQ 1 (intToUInt 1)) ∧
      ((-1 : Int) < 0 → modify_key sampleQ 1 (-1) = decrease_key sampleQ 1 (intToUInt (-(-1))))) :=
  ⟨⟨by decide, modify_key_locked_noop_dispatch.1 sampleLockedQ 5 7 (by decide)⟩,
   ⟨by decide, modify_key_locked_noop_dispatch.2 sampleQ 1 1 (by decide) |>.1,
    modify_key_locked_noop_dispatch.2 sampleQ 1 (-1) (by decide) |>.2⟩⟩

/-! ### Claim C8 -/

/-- Claim C8: `set_key(node, k)` stores the translated value
`UInt(k - offset)` into the node's key field and changes nothing else —
no bucket content, no list membership, not `max`, and no other node's
key; for `k` in range the stored value is exactly `k - offset` (so for
range `[-3, 3]` and `k = 0` it is 4). -/
theorem set_key_frame :
    (∀ (q : BPQueue) (n : NodeId) (k : Int),
      (set_key q n k).bucket = q.bucket ∧
      (set_key q n k).max = q.max ∧
      (set_key q n k).offset = q.offset ∧
      (set_key q n k).high = q.high ∧
      (set_key q n k).locked = q.locked ∧
      (∀ m, m ≠ n → (set_key q n k).key m = q.key m) ∧
      (set_key q n k).key n = intToUInt (k - q.offset)) ∧
    (∀ (q : BPQueue) (n : NodeId) (k : Int),
      q.offset < k → k - q.offset < (uintMod : Int) →
      ((set_key q n k).key n : Int) = k - q.offset) := by
  constructor
  · intro q n k
    refine ⟨rfl, rfl, rfl, rfl, rfl, ?_, ?_⟩
    · intro m hm
      simp [set_key, updF, hm]
    · simp [set_key, updF]
  · intro q n k h1 h2
    have hfst : (set_key q n k).key n = intToUInt (k - q.offset) := by
      simp [set_key, updF]
    rw [hfst, intToUInt_of_nonneg (k - q.offset) (by omega) h2]
    omega

/-- Instantiation of `set_key_frame` on a fresh queue over `[-3, 3]`:
`set_key(node 1, 0)` stores internal key `0 - (-4) = 4` and leaves the
rest of the state untouched. -/
theorem set_key_frame_witness :
    ((set_key (mkBPQueue (-3) 3 (fun _ => 0) (fun _ => false)) 1 0).bucket =
        (mkBPQueue (-3) 3 (fun _ => 0) (fun _ => false)).bucket ∧
      (set_key (mkBPQueue (-3) 3 (fun _ => 0) (fun _ => false)) 1 0).max =
        (mkBPQueue (-3) 3 (fun _ => 0) (fun _ => false)).max ∧
      (set_key (mkBPQueue (-3) 3 (fun _ => 0) (fun _ => false)) 1 0).key 1 = 4) ∧
    ((mkBPQueue (-3) 3 (fun _ => 0) (fun _ => false)).offset < 0 ∧
      (0 : Int) - (mkBPQueue (-3) 3 (fun _ => 0) (fun _ => false)).offset < (uintMod : Int) ∧
      ((set_key (mkBPQueue (-3) 3 (fun _ => 0) (fun _ => false)) 1 0).key 1 : Int) =
        0 - (mkBPQueue (-3) 3 (fun _ => 0) (fun _ => false)).offset) :=
  ⟨⟨(set_key_frame.1 (mkBPQueue (-3) 3 (fun _ => 0) (fun _ => false)) 1 0).1,
    (set_key_frame.1 (mkBPQueue (-3) 3 (fun _ => 0) (fun _ => false)) 1 0).2.1,
    by decide⟩,
   by decide, by decide,
   set_key_frame.2 (mkBPQueue (-3) 3 (fun _ => 0) (fun _ => false)) 1 0 (by decide) (by decide)⟩

/-! ### Claim C2 -/

/-- Claim C2: every mutating operation (`append`, `appendleft`,
`appendleft_direct`, `popleft`, `increase_key`, `decrease_key`,
`modify_key`, `detach`, `clear`), run from a well-formed state under its
caller-side preconditions, leaves the invariant intact: `max = 0`
exactly when no content node is queued (equivalently `is_empty()` iff
`get_max() = offset = a - 1`), when `max > 0` the bucket at `max` is
non-empty and all buckets above it are empty, and every queued node's
stored internal key is the index of the bucket holding it. -/
theorem mutating_ops_preserve_invariant (q : BPQueue) (op : MutOp) (q2 : BPQueue)
    (hw : WF q) (hok : sideOK q op) (h : applyMut q op = some q2) :
    WF q2 ∧
    (is_empty q2 = true ↔ get_max q2 = q2.offset) ∧
    (q2.max = 0 ↔ ¬∃ n, queued q2 n) ∧
    (0 < q2.max → bucketAt q2 q2.max ≠ [] ∧
      ∀ j < q2.bucket.length, q2.max < j → bucketAt q2 j = []) ∧
    (∀ j < q2.bucket.length, 0 < j → ∀ n ∈ bucketAt q2 j, q2.key n = j) := by
  have main : WF q2 := by
    cases op with
    | app n k =>
      obtain ⟨hns, hnq, hwrap⟩ := hok
      exact append_WF q n k q2 hw hns hnq hwrap h
    | appl n k =>
      obtain ⟨hns, hnq, hwrap⟩ := hok
      exact appendleft_WF q n k q2 hw hns hnq hwrap h
    | apld n =>
      obtain ⟨hns, hnq, hwrap⟩ := hok
      exact appendleft_direct_WF q n q2 hw hns hnq hwrap h
    | pop =>
      replace h : (popleft q).map Prod.snd = some q2 := h
      rcases Nat.eq_zero_or_pos q.max with hm | hm
      · rw [popleft_empty_none q hw hm] at h
        exact absurd h (by simp)
      · obtain ⟨n, rest, m2, hcons, hscan, heq, hwf⟩ := popleft_spec q hw hm
        rw [heq] at h
        simp only [Option.map_some'] at h
        injection h with h
        subst h
        exact hwf
    | inc n d =>
      obtain ⟨hns, hq, hd, hhi⟩ := hok
      obtain ⟨heq, hE, hwf⟩ := increase_key_spec q n d hw hq hd hhi
      replace h : increase_key q n d = some q2 := h
      rw [heq] at h
      injection h with h
      subst h
      exact hwf
    | dec n d =>
      obtain ⟨hns, hq, hd, hlo⟩ := hok
      obtain ⟨m2, hm2, hge, hle, heq, hE, hwf⟩ := decrease_key_spec q n d hw hq hd hlo
      replace h : decrease_key q n d = some q2 := h
      rw [heq] at h
      injection h with h
      subst h
      exact hwf
    | mod n d =>
      replace h : modify_key q n d = some q2 := h
      exact modify_key_WF q n d q2 hw hok h
    | det n =>
      obtain ⟨hns, hq⟩ := hok
      obtain ⟨m2, hm2, heq, hwf⟩ := detach_spec q n hw hq hns
      replace h : detach q n = some q2 := h
      rw [heq] at h
      injection h with h
      subst h
      exact hwf
    | clr =>
      replace h : some (clear q) = some q2 := h
      injection h with h
      subst h
      exact clear_WF q hw
  refine ⟨main, empty_iff_get_max q2 main, max_zero_iff_no_queued q2 main, ?_, ?_⟩
  · intro h0
    obtain ⟨hlen, hM, hb0, hmax, habove, hne, hkeys, hnodup, hdisj⟩ := main
    exact ⟨hne h0, habove⟩
  · intro j hj h0 m hm
    obtain ⟨hlen, hM, hb0, hmax, habove, hne, hkeys, hnodup, hdisj⟩ := main
    exact (hkeys j hj h0 m hm).1

/-- Instantiation of `mutating_ops_preserve_invariant`: `decrease_key`
by 2 on node 1 of `sampleQ` (internal key 3) moves it behind node 2 in
bucket 1 and rescans `max` down to 1. -/
theorem mutating_ops_preserve_invariant_witness :
    WF sampleQ ∧ sideOK sampleQ (.dec 1 2) ∧
    applyMut sampleQ (.dec 1 2) =
      some { sampleQ with
        bucket := [[sentinelId], [2, 1], [], [], []]
        key := updF sampleQ.key 1 1
        max := 1 } ∧
    (WF { sampleQ with
        bucket := [[sentinelId], [2, 1], [], [], []]
        key := updF sampleQ.key 1 1
        max := 1 } ∧
      (is_empty { sampleQ with
          bucket := [[sentinelId], [2, 1], [], [], []]
          key := updF sampleQ.key 1 1
          max := 1 } = true ↔
        get_max { sampleQ with
          bucket := [[sentinelId], [2, 1], [], [], []]
          key := updF sampleQ.key 1 1
          max := 1 } =
        ({ sampleQ with
          bucket := [[sentinelId], [2, 1], [], [], []]
          key := updF sampleQ.key 1 1
          max := 1 } : BPQueue).offset) ∧
      (({ sampleQ with
          bucket := [[sentinelId], [2, 1], [], [], []]
          key := updF sampleQ.key 1 1
          max := 1 } : BPQueue).max = 0 ↔
        ¬∃ n, queued { sampleQ with
          bucket := [[sentinelId], [2, 1], [], [], []]
          key := updF sampleQ.key 1 1
          max := 1 } n) ∧
      (0 < ({ sampleQ with
          bucket := [[sentinelId], [2, 1], [], [], []]
          key := updF sampleQ.key 1 1
          max := 1 } : BPQueue).max →
        bucketAt { sampleQ with
          bucket := [[sentinelId], [2, 1], [], [], []]
          key := updF sampleQ.key 1 1
          max := 1 }
          ({ sampleQ with
            bucket := [[sentinelId], [2, 1], [], [], []]
            key := updF sampleQ.key 1 1
            max := 1 } : BPQueue).max ≠ [] ∧
        ∀ j < ({ sampleQ with
            bucket := [[sentinelId], [2, 1], [], [], []]
            key := updF sampleQ.key 1 1
            max := 1 } : BPQueue).bucket.length,
          ({ sampleQ with
            bucket := [[sentinelId], [2, 1], [], [], []]
            key := updF sampleQ.key 1 1
            max := 1 } : BPQueue).max < j →
          bucketAt { sampleQ with
            bucket := [[sentinelId], [2, 1], [], [], []]
            key := updF sampleQ.key 1 1
            max := 1 } j = []) ∧
      (∀ j < ({ sampleQ with
          bucket := [[sentinelId], [2, 1], [], [], []]
          key := updF sampleQ.key 1 1
          max := 1 } : BPQueue).bucket.length, 0 < j →
        ∀ n ∈ bucketAt { sampleQ with
          bucket := [[sentinelId], [2, 1], [], [], []]
          key := updF sampleQ.key 1 1
          max := 1 } j,
        ({ sampleQ with
          bucket := [[sentinelId], [2, 1], [], [], []]
          key := updF sampleQ.key 1 1
          max := 1 } : BPQueue).key n = j)) :=
  by
  have hok : sideOK sampleQ (.dec 1 2) := by
    show 1 ≠ sentinelId ∧ queued sampleQ 1 ∧ 0 < 2 ∧ 2 < sampleQ.key 1
    decide
  exact ⟨by decide, hok, rfl,
    mutating_ops_preserve_invariant sampleQ (.dec 1 2) _ (by decide) hok rfl⟩

/-! ### Claim C9 -/

/-- Claim C9: iterating from `begin()` (bucket `max`) down to `end()`
(bucket 0, the sentinel) visits, in descending bucket order and skipping
empty buckets, exactly the nodes currently attached; the visit count
equals the number attached, which each operation changes by exactly its
insertion/removal balance (so it always equals appended minus detached
or popped); and on an empty queue the iteration is empty
(`begin() = end()`). -/
theorem iterator_count_conservation :
    (∀ q : BPQueue, WF q → (toListDesc q).length = contentCount q ∧
      ∀ n, n ∈ toListDesc q ↔ queued q n) ∧
    (∀ q : BPQueue, is_empty q = true → toListDesc q = []) ∧
    (∀ (q : BPQueue) (op : MutOp) (q2 : BPQueue), WF q → sideOK q op →
      applyMut q op = some q2 → countSpec op (contentCount q) (contentCount q2)) := by
  refine ⟨?_, ?_, ?_⟩
  · intro q hw
    exact ⟨contentCount_toListDesc q hw, fun n => mem_toListDesc q hw n⟩
  · intro q he
    have hm : q.max = 0 := by simpa [is_empty] using he
    unfold toListDesc
    rw [hm]
    rfl
  · intro q op q2 hw hok h
    cases op with
    | app n k =>
      obtain ⟨hns, hnq, hwrap⟩ := hok
      replace h : append q n k = some q2 := h
      show contentCount q2 = contentCount q + 1
      exact append_count q n k q2 hw hwrap h
    | appl n k =>
      obtain ⟨hns, hnq, hwrap⟩ := hok
      replace h : appendleft q n k = some q2 := h
      show contentCount q2 = contentCount q + 1
      exact appendleft_count q n k q2 hw hwrap h
    | apld n =>
      obtain ⟨hns, hnq, hwrap⟩ := hok
      replace h : appendleft_direct q n = some q2 := h
      unfold appendleft_direct at h
      show contentCount q2 = contentCount q + 1
      by_cases hg : uintToInt (q.key n) ≤ q.offset
      · rw [if_pos hg] at h
        exact absurd h (by simp)
      · rw [if_neg hg] at h
        exact appendleft_count q n (uintToInt (q.key n)) q2 hw hwrap h
    | pop =>
      replace h : (popleft q).map Prod.snd = some q2 := h
      show contentCount q2 + 1 = contentCount q
      exact popleft_count q q2 hw h
    | inc n d =>
      obtain ⟨hns, hq, hd, hhi⟩ := hok
      replace h : increase_key q n d = some q2 := h
      show contentCount q2 = contentCount q
      exact increase_key_count q n d q2 hw hq hd hhi h
    | dec n d =>
      obtain ⟨hns, hq, hd, hlo⟩ := hok
      replace h : decrease_key q n d = some q2 := h
      show contentCount q2 = contentCount q
      exact decrease_key_count q n d q2 hw hq hd hlo h
    | mod n d =>
      replace h : modify_key q n d = some q2 := h
      unfold modify_key at h
      show contentCount q2 = contentCount q
      by_cases hl : q.locked n
      · rw [if_pos hl] at h
        injection h with h
        subst h
        rfl
      · rw [if_neg hl] at h
        rcases hok with hok | ⟨hns, hq, hd1, hd2, hinc, hdec⟩
        · exact absurd hok hl
        by_cases hdp : 0 < d
        · rw [if_pos hdp] at h
          have hdn : 0 < intToUInt d := by
            rw [intToUInt_of_nonneg d (by omega) (by unfold uintMod; push_cast; omega)]
            omega
          exact increase_key_count q n (intToUInt d) q2 hw hq hdn (hinc hdp) h
        · rw [if_neg hdp] at h
          by_cases hdm : d < 0
          · rw [if_pos hdm] at h
            have hdn : 0 < intToUInt (-d) := by
              rw [intToUInt_of_nonneg (-d) (by omega) (by unfold uintMod; push_cast; omega)]
              omega
            exact decrease_key_count q n (intToUInt (-d)) q2 hw hq hdn (hdec hdm) h
          · rw [if_neg hdm] at h
            injection h with h
            subst h
            rfl
    | det n =>
      obtain ⟨hns, hq⟩ := hok
      replace h : detach q n = some q2 := h
      show contentCount q2 + 1 = contentCount q
      exact detach_count q n q2 hw hq hns h
    | clr =>
      replace h : some (clear q) = some q2 := h
      injection h with h
      subst h
      show contentCount (clear q) = 0
      exact contentCount_clear q hw

/-- Instantiation of `iterator_count_conservation` on `sampleQ` (two
queued nodes) and its `popleft`. -/
theorem iterator_count_conservation_witness :
    ((toListDesc sampleQ).length = contentCount sampleQ ∧
      ∀ n, n ∈ toListDesc sampleQ ↔ queued sampleQ n) ∧
    (is_empty (mkBPQueue 0 1 (fun _ => 0) (fun _ => false)) = true →
      toListDesc (mkBPQueue 0 1 (fun _ => 0) (fun _ => false)) = []) ∧
    countSpec .pop (contentCount sampleQ)
      (contentCount { sampleQ with bucket := [[sentinelId], [2], [], [], []], max := 1 }) :=
  ⟨iterator_count_conservation.1 sampleQ (by decide),
   iterator_count_conservation.2.1 (mkBPQueue 0 1 (fun _ => 0) (fun _ => false)),
   iterator_count_conservation.2.2 sampleQ .pop
     { sampleQ with bucket := [[sentinelId], [2], [], [], []], max := 1 }
     (by decide) trivial rfl⟩

/-! ### Claim C6 -/

/-- Claim C6: the constructor permanently seeds `bucket[0]` with the
sentinel node, so the downward `max` scan of `popleft` and `detach`
never underflows: it stops at the highest non-empty bucket at or below
its start, reaching 0 exactly when every content bucket below the start
is empty; consequently `popleft` on a non-empty well-formed queue and
`detach` of a queued node always succeed. -/
theorem sentinel_scan_terminates :
    (∀ (a b : Int) (key0 : NodeId → Nat) (locked0 : NodeId → Bool),
      bucketAt (mkBPQueue a b key0 locked0) 0 = [sentinelId]) ∧
    (∀ (bkt : List (List NodeId)) (m : Nat), bkt.getD 0 [] ≠ [] →
      ∃ m2, scanMax bkt m = some m2 ∧ m2 ≤ m ∧ bkt.getD m2 [] ≠ [] ∧
        (∀ j, m2 < j → j ≤ m → bkt.getD j [] = []) ∧
        ((∀ j, 0 < j → j ≤ m → bkt.getD j [] = []) → m2 = 0)) ∧
    (∀ q : BPQueue, WF q → 0 < q.max → ∃ r, popleft q = some r) ∧
    (∀ (q : BPQueue) (n : NodeId), WF q → queued q n → n ≠ sentinelId →
      ∃ q2, detach q n = some q2) := by
  refine ⟨?_, ?_, ?_, ?_⟩
  · intro a b key0 locked0
    rw [bucketAt_mk, if_pos rfl]
  · intro bkt m h0
    obtain ⟨m2, hm2⟩ := scanMax_total bkt m h0
    obtain ⟨hle, hne, hemp⟩ := scanMax_spec bkt m m2 hm2
    refine ⟨m2, hm2, hle, hne, hemp, ?_⟩
    intro hall
    by_contra hc
    exact hne (hall m2 (by omega) hle)
  · intro q hw hm
    obtain ⟨n, rest, m2, hcons, hscan, heq, hwf⟩ := popleft_spec q hw hm
    exact ⟨_, heq⟩
  · intro q n hw hq hns
    obtain ⟨m2, hm2, heq, hwf⟩ := detach_spec q n hw hq hns
    exact ⟨_, heq⟩

/-- Instantiation of `sentinel_scan_terminates` on a fresh queue, a
concrete bucket array, and `sampleQ`. -/
theorem sentinel_scan_terminates_witness :
    bucketAt (mkBPQueue (-3) 3 (fun _ => 0) (fun _ => false)) 0 = [sentinelId] ∧
    (∃ m2, scanMax [[sentinelId], [7], []] 2 = some m2 ∧ m2 ≤ 2 ∧
      ([[sentinelId], [7], []] : List (List NodeId)).getD m2 [] ≠ [] ∧
      (∀ j, m2 < j → j ≤ 2 → ([[sentinelId], [7], []] : List (List NodeId)).getD j [] = []) ∧
      ((∀ j, 0 < j → j ≤ 2 →
        ([[sentinelId], [7], []] : List (List NodeId)).getD j [] = []) → m2 = 0)) ∧
    (∃ r, popleft sampleQ = some r) ∧
    (∃ q2, detach sampleQ 2 = some q2) :=
  ⟨sentinel_scan_terminates.1 (-3) 3 (fun _ => 0) (fun _ => false),
   sentinel_scan_terminates.2.1 [[sentinelId], [7], []] 2 (by decide),
   sentinel_scan_terminates.2.2.1 sampleQ (by decide) (by decide),
   sentinel_scan_terminates.2.2.2 sampleQ 2 (by decide) (by decide) (by decide)⟩

/-! ### Claim C3 -/

/-- Claim C3: on a queued unlocked node with the resulting internal key
in `(0, high]`, `decrease_key` detaches the node, lowers its key by
`delta`, and re-inserts it at the back of the new bucket — so when the
queue is drained by `popleft`, the nodes already in that bucket come out
(consecutively) just before it (FIFO ties); `increase_key` raises the
key and re-inserts at the front, so the node comes out just before the
nodes already in its new bucket (LIFO ties). -/
theorem key_update_tie_order :
    (∀ (q : BPQueue) (n : NodeId) (d : Nat), WF q → queued q n → 0 < d → d < q.key n →
      ∃ q2 pre post, decrease_key q n d = some q2 ∧
        q2.key n = q.key n - d ∧
        bucketAt q2 (q.key n - d) = bucketAt q (q.key n - d) ++ [n] ∧
        drainAll q2 = pre ++ (bucketAt q (q.key n - d) ++ [n]) ++ post) ∧
    (∀ (q : BPQueue) (n : NodeId) (d : Nat), WF q → queued q n → 0 < d →
      q.key n + d ≤ q.high →
      ∃ q2 pre post, increase_key q n d = some q2 ∧
        q2.key n = q.key n + d ∧
        bucketAt q2 (q.key n + d) = n :: bucketAt q (q.key n + d) ∧
        drainAll q2 = pre ++ (n :: bucketAt q (q.key n + d)) ++ post) := by
  constructor
  · intro q n d hw hq hd hlo
    obtain ⟨h0k, hklt, hkmem, hns', hl⟩ := queued_key q hw n hq
    obtain ⟨m2, hm2, hge, hle, heq, hE, hwf⟩ := decrease_key_spec q n d hw hq hd hlo
    have hbucket : bucketAt { q with
        bucket := (eraseAll q.bucket n).set (q.key n - d)
          ((eraseAll q.bucket n).getD (q.key n - d) [] ++ [n])
        key := updF q.key n (q.key n - d)
        max := m2 } (q.key n - d) = bucketAt q (q.key n - d) ++ [n] := by
      show ((eraseAll q.bucket n).set (q.key n - d)
        ((eraseAll q.bucket n).getD (q.key n - d) [] ++ [n])).getD (q.key n - d) [] =
        bucketAt q (q.key n - d) ++ [n]
      rw [getD_set_self _ _ _ (by rw [length_eraseAll]; omega), hE]
    obtain ⟨pre, hpre⟩ := canonSeq_decompose (bucketAt { q with
        bucket := (eraseAll q.bucket n).set (q.key n - d)
          ((eraseAll q.bucket n).getD (q.key n - d) [] ++ [n])
        key := updF q.key n (q.key n - d)
        max := m2 }) m2 (q.key n - d) (by omega) hge
    refine ⟨_, pre, canonSeq (bucketAt { q with
        bucket := (eraseAll q.bucket n).set (q.key n - d)
          ((eraseAll q.bucket n).getD (q.key n - d) [] ++ [n])
        key := updF q.key n (q.key n - d)
        max := m2 }) (q.key n - d - 1), heq,
      by show updF q.key n (q.key n - d) n = q.key n - d; simp [updF],
      hbucket, ?_⟩
    rw [drainAll_eq_toListDesc _ hwf]
    have hfinal : toListDesc { q with
        bucket := (eraseAll q.bucket n).set (q.key n - d)
          ((eraseAll q.bucket n).getD (q.key n - d) [] ++ [n])
        key := updF q.key n (q.key n - d)
        max := m2 } = pre ++ bucketAt { q with
        bucket := (eraseAll q.bucket n).set (q.key n - d)
          ((eraseAll q.bucket n).getD (q.key n - d) [] ++ [n])
        key := updF q.key n (q.key n - d)
        max := m2 } (q.key n - d) ++ canonSeq (bucketAt { q with
        bucket := (eraseAll q.bucket n).set (q.key n - d)
          ((eraseAll q.bucket n).getD (q.key n - d) [] ++ [n])
        key := updF q.key n (q.key n - d)
        max := m2 }) (q.key n - d - 1) := hpre
    rw [hbucket] at hfinal
    exact hfinal
  · intro q n d hw hq hd hhi
    obtain ⟨h0k, hklt, hkmem, hns', hl⟩ := queued_key q hw n hq
    obtain ⟨heq, hE, hwf⟩ := increase_key_spec q n d hw hq hd hhi
    have hbucket : bucketAt { q with
        bucket := (eraseAll q.bucket n).set (q.key n + d)
          (n :: (eraseAll q.bucket n).getD (q.key n + d) [])
        key := updF q.key n (q.key n + d)
        max := if q.max < q.key n + d then q.key n + d else q.max } (q.key n + d) =
        n :: bucketAt q (q.key n + d) := by
      show ((eraseAll q.bucket n).set (q.key n + d)
        (n :: (eraseAll q.bucket n).getD (q.key n + d) [])).getD (q.key n + d) [] =
        n :: bucketAt q (q.key n + d)
      rw [getD_set_self _ _ _ (by
        rw [length_eraseAll]
        obtain ⟨hlen, hM, hb0, hmax, habove, hne2, hkeys, hnodup, hdisj⟩ := hw
        omega), hE]
    have hmle : q.key n + d ≤ (if q.max < q.key n + d then q.key n + d else q.max) := by
      split <;> omega
    obtain ⟨pre, hpre⟩ := canonSeq_decompose (bucketAt { q with
        bucket := (eraseAll q.bucket n).set (q.key n + d)
          (n :: (eraseAll q.bucket n).getD (q.key n + d) [])
        key := updF q.key n (q.key n + d)
        max := if q.max < q.key n + d then q.key n + d else q.max })
      (if q.max < q.key n + d then q.key n + d else q.max) (q.key n + d) (by omega) hmle
    refine ⟨_, pre, canonSeq (bucketAt { q with
        bucket := (eraseAll q.bucket n).set (q.key n + d)
          (n :: (eraseAll q.bucket n).getD (q.key n + d) [])
        key := updF q.key n (q.key n + d)
        max := if q.max < q.key n + d then q.key n + d else q.max }) (q.key n + d - 1), heq,
      by show updF q.key n (q.key n + d) n = q.key n + d; simp [updF],
      hbucket, ?_⟩
    rw [drainAll_eq_toListDesc _ hwf]
    have hfinal : toListDesc { q with
        bucket := (eraseAll q.bucket n).set (q.key n + d)
          (n :: (eraseAll q.bucket n).getD (q.key n + d) [])
        key := updF q.key n (q.key n + d)
        max := if q.max < q.key n + d then q.key n + d else q.max } =
        pre ++ bucketAt { q with
        bucket := (eraseAll q.bucket n).set (q.key n + d)
          (n :: (eraseAll q.bucket n).getD (q.key n + d) [])
        key := updF q.key n (q.key n + d)
        max := if q.max < q.key n + d then q.key n + d else q.max } (q.key n + d) ++
        canonSeq (bucketAt { q with
        bucket := (eraseAll q.bucket n).set (q.key n + d)
          (n :: (eraseAll q.bucket n).getD (q.key n + d) [])
        key := updF q.key n (q.key n + d)
        max := if q.max < q.key n + d then q.key n + d else q.max }) (q.key n + d - 1) := hpre
    rw [hbucket] at hfinal
    exact hfinal

/-- Instantiation of `key_update_tie_order` on `sampleQ`: decreasing
node 1 (internal key 3) by 2 lands it behind node 2 in bucket 1;
increasing node 2 (internal key 1) by 2 lands it in front of node 1 in
bucket 3. -/
theorem key_update_tie_order_witness :
    (∃ q2 pre post, decrease_key sampleQ 1 2 = some q2 ∧
      q2.key 1 = sampleQ.key 1 - 2 ∧
      bucketAt q2 (sampleQ.key 1 - 2) = bucketAt sampleQ (sampleQ.key 1 - 2) ++ [1] ∧
      drainAll q2 = pre ++ (bucketAt sampleQ (sampleQ.key 1 - 2) ++ [1]) ++ post) ∧
    (∃ q2 pre post, increase_key sampleQ 2 2 = some q2 ∧
      q2.key 2 = sampleQ.key 2 + 2 ∧
      bucketAt q2 (sampleQ.key 2 + 2) = 2 :: bucketAt sampleQ (sampleQ.key 2 + 2) ∧
      drainAll q2 = pre ++ (2 :: bucketAt sampleQ (sampleQ.key 2 + 2)) ++ post) :=
  ⟨key_update_tie_order.1 sampleQ 1 2 (by decide) (by decide) (by decide) (by decide),
   key_update_tie_order.2 sampleQ 2 2 (by decide) (by decide) (by decide) (by decide)⟩

/-! ### Claim C1 -/

/-- Claim C1: for a queue constructed over `[a, b]` and any sequence of
`append`/`appendleft` calls with external keys in `[a, b]` (on
distinct, non-sentinel nodes), draining the queue by repeated `popleft`
returns the queued nodes in non-increasing key order; among the nodes
inserted with the same key, the `append`-inserted ones come out in call
order (FIFO) and the `appendleft`-inserted ones in reverse call order
(LIFO). -/
theorem append_popleft_order (a b : Int) (key0 : NodeId → Nat) (locked0 : NodeId → Bool)
    (ops : List InsOp)
    (hab : a ≤ b) (hsz : b - a + 1 < (uintMod : Int))
    (hrange : ∀ op ∈ ops, a ≤ op.gain ∧ op.gain ≤ b)
    (hnodes : ∀ op ∈ ops, op.node ≠ sentinelId)
    (hnd : (ops.map InsOp.node).Nodup) :
    ∃ q2, applyIns (mkBPQueue a b key0 locked0) ops = some q2 ∧
      List.Sorted (· ≥ ·) ((drainAll q2).map (fun n => q2.offset + (q2.key n : Int))) ∧
      (∀ k : Int,
        (drainAll q2).filter (fun n => decide (n ∈ appNodes ops k)) = appNodes ops k) ∧
      (∀ k : Int,
        (drainAll q2).filter (fun n => decide (n ∈ apLeftNodes ops k)) =
          (apLeftNodes ops k).reverse) := by
  have hwf0 := mkBPQueue_WF a b key0 locked0 hab hsz
  have hchar0 : ∀ j, 1 ≤ j → j ≤ (mkBPQueue a b key0 locked0).high →
      bucketAt (mkBPQueue a b key0 locked0) j =
        (apLeftNodesI (a - 1) [] j).reverse ++ appNodesI (a - 1) [] j := by
    intro j hj1 hj2
    rw [bucketAt_mk, if_neg (by omega)]
    rfl
  have hnode0 : ∀ op ∈ ops, op.node ≠ sentinelId ∧
      ¬queued (mkBPQueue a b key0 locked0) op.node := by
    intro op hop
    refine ⟨hnodes op hop, ?_⟩
    rintro ⟨j, hj, h0, hmem⟩
    rw [bucketAt_mk, if_neg (by omega)] at hmem
    simp at hmem
  obtain ⟨q2, happ, hwf, hoff, hhigh, hchar⟩ := applyIns_sound a b ops []
    (mkBPQueue a b key0 locked0) hwf0 rfl rfl hab hsz hchar0 hrange hnode0 hnd
  simp only [List.nil_append] at hchar
  have hwfc := hwf
  obtain ⟨hlen, hM, hb0, hmax, habove, hne0, hkeys, hnodup, hdisj⟩ := hwfc
  have hdrain : drainAll q2 = canonSeq (bucketAt q2) q2.max := drainAll_eq_toListDesc q2 hwf
  refine ⟨q2, happ, ?_, ?_, ?_⟩
  · rw [hdrain]
    exact sorted_canonSeq (bucketAt q2) q2.key q2.offset q2.max
      (fun j h1 h2 n hn => (hkeys j (by omega) (by omega) n hn).1)
  · intro k
    rw [hdrain]
    by_cases hemp : appNodes ops k = []
    · rw [hemp]
      refine filter_canonSeq_nil _ _ _ ?_
      intro j h1 h2 n hn
      simp
    · obtain ⟨m0, hm0⟩ := List.exists_mem_of_ne_nil _ hemp
      have hop0 : InsOp.app m0 k ∈ ops := (mem_appNodes ops k m0).mp hm0
      have hk1 : a ≤ k := (hrange _ hop0).1
      have hk2 : k ≤ b := (hrange _ hop0).2
      have hjkval : intToUInt (k - (a - 1)) = (k - (a - 1)).toNat :=
        intToUInt_of_nonneg _ (by omega) (by omega)
      have hjk1 : 1 ≤ intToUInt (k - (a - 1)) := by
        rw [hjkval]
        omega
      have hjkhigh : intToUInt (k - (a - 1)) ≤ q2.high := by
        rw [hjkval, hhigh]
        omega
      have hbjk : bucketAt q2 (intToUInt (k - (a - 1))) =
          (apLeftNodes ops k).reverse ++ appNodes ops k := by
        rw [hchar _ hjk1 hjkhigh,
          appNodesI_eq_appNodes a b k ops hsz hk1 hk2 hrange,
          apLeftNodesI_eq_apLeftNodes a b k ops hsz hk1 hk2 hrange]
      have hm0b : m0 ∈ bucketAt q2 (intToUInt (k - (a - 1))) := by
        rw [hbjk]
        exact List.mem_append_right _ hm0
      have hq : queued q2 m0 := ⟨intToUInt (k - (a - 1)), by omega, by omega, hm0b⟩
      have hjkmax : intToUInt (k - (a - 1)) ≤ q2.max := by
        have h1 := queued_key_le_max q2 hwf m0 hq
        have h2 := (hkeys _ (by omega) (by omega) m0 hm0b).1
        omega
      have hside : ∀ j, 1 ≤ j → j ≤ q2.max → j ≠ intToUInt (k - (a - 1)) →
          ∀ n ∈ bucketAt q2 j, decide (n ∈ appNodes ops k) = false := by
        intro j h1 h2 hnej n hn
        rw [decide_eq_false_iff_not]
        intro hmem
        have hjb : j ≤ q2.high := by omega
        rw [hchar j h1 hjb, List.mem_append, List.mem_reverse] at hn
        have h2m : InsOp.app n k ∈ ops := (mem_appNodes ops k n).mp hmem
        rcases hn with hl | hr
        · obtain ⟨g, hgop, hgj⟩ := (mem_apLeftNodesI (a - 1) ops j n).mp hl
          exact InsOp.noConfusion (List.inj_on_of_nodup_map hnd h2m hgop rfl)
        · obtain ⟨g, hgop, hgj⟩ := (mem_appNodesI (a - 1) ops j n).mp hr
          have heq2 : InsOp.app n g = InsOp.app n k :=
            List.inj_on_of_nodup_map hnd hgop h2m rfl
          have hgk : g = k := by
            injection heq2 with h3 h4
          rw [hgk] at hgj
          exact hnej hgj.symm
      rw [filter_canonSeq_single (bucketAt q2) q2.max _ (intToUInt (k - (a - 1)))
        hjk1 hjkmax hside, hbjk, List.filter_append]
      have hleftnil : (apLeftNodes ops k).reverse.filter
          (fun n => decide (n ∈ appNodes ops k)) = [] := by
        rw [List.filter_eq_nil_iff]
        intro n hn hp
        rw [decide_eq_true_eq] at hp
        rw [List.mem_reverse] at hn
        have h1m : InsOp.appl n k ∈ ops := (mem_apLeftNodes ops k n).mp hn
        have h2m : InsOp.app n k ∈ ops := (mem_appNodes ops k n).mp hp
        exact InsOp.noConfusion (List.inj_on_of_nodup_map hnd h2m h1m rfl)
      have hrightself : (appNodes ops k).filter
          (fun n => decide (n ∈ appNodes ops k)) = appNodes ops k := by
        rw [List.filter_eq_self]
        intro n hn
        rw [decide_eq_true_eq]
        exact hn
      rw [hleftnil, hrightself, List.nil_append]
  · intro k
    rw [hdrain]
    by_cases hemp : apLeftNodes ops k = []
    · rw [hemp, List.reverse_nil]
      refine filter_canonSeq_nil _ _ _ ?_
      intro j h1 h2 n hn
      simp
    · obtain ⟨m0, hm0⟩ := List.exists_mem_of_ne_nil _ hemp
      have hop0 : InsOp.appl m0 k ∈ ops := (mem_apLeftNodes ops k m0).mp hm0
      have hk1 : a ≤ k := (hrange _ hop0).1
      have hk2 : k ≤ b := (hrange _ hop0).2
      have hjkval : intToUInt (k - (a - 1)) = (k - (a - 1)).toNat :=
        intToUInt_of_nonneg _ (by omega) (by omega)
      have hjk1 : 1 ≤ intToUInt (k - (a - 1)) := by
        rw [hjkval]
        omega
      have hjkhigh : intToUInt (k - (a - 1)) ≤ q2.high := by
        rw [hjkval, hhigh]
        omega
      have hbjk : bucketAt q2 (intToUInt (k - (a - 1))) =
          (apLeftNodes ops k).reverse ++ appNodes ops k := by
        rw [hchar _ hjk1 hjkhigh,
          appNodesI_eq_appNodes a b k ops hsz hk1 hk2 hrange,
          apLeftNodesI_eq_apLeftNodes a b k ops hsz hk1 hk2 hrange]
      have hm0b : m0 ∈ bucketAt q2 (intToUInt (k - (a - 1))) := by
        rw [hbjk]
        exact List.mem_append_left _ (List.mem_reverse.mpr hm0)
      have hq : queued q2 m0 := ⟨intToUInt (k - (a - 1)), by omega, by omega, hm0b⟩
      have hjkmax : intToUInt (k - (a - 1)) ≤ q2.max := by
        have h1 := queued_key_le_max q2 hwf m0 hq
        have h2 := (hkeys _ (by omega) (by omega) m0 hm0b).1
        omega
      have hside : ∀ j, 1 ≤ j → j ≤ q2.max → j ≠ intToUInt (k - (a - 1)) →
          ∀ n ∈ bucketAt q2 j, decide (n ∈ apLeftNodes ops k) = false := by
        intro j h1 h2 hnej n hn
        rw [decide_eq_false_iff_not]
        intro hmem
        have hjb : j ≤ q2.high := by omega
        rw [hchar j h1 hjb, List.mem_append, List.mem_reverse] at hn
        have h2m : InsOp.appl n k ∈ ops := (mem_apLeftNodes ops k n).mp hmem
        rcases hn with hl | hr
        · obtain ⟨g, hgop, hgj⟩ := (mem_apLeftNodesI (a - 1) ops j n).mp hl
          have heq2 : InsOp.appl n g = InsOp.appl n k :=
            List.inj_on_of_nodup_map hnd hgop h2m rfl
          have hgk : g = k := by
            injection heq2 with h3 h4
          rw [hgk] at hgj
          exact hnej hgj.symm
        · obtain ⟨g, hgop, hgj⟩ := (mem_appNodesI (a - 1) ops j n).mp hr
          exact InsOp.noConfusion (List.inj_on_of_nodup_map hnd h2m hgop rfl)
      rw [filter_canonSeq_single (bucketAt q2) q2.max _ (intToUInt (k - (a - 1)))
        hjk1 hjkmax hside, hbjk, List.filter_append]
      have hleftself : (apLeftNodes ops k).reverse.filter
          (fun n => decide (n ∈ apLeftNodes ops k)) = (apLeftNodes ops k).reverse := by
        rw [List.filter_eq_self]
        intro n hn
        rw [decide_eq_true_eq]
        exact List.mem_reverse.mp hn
      have hrightnil : (appNodes ops k).filter
          (fun n => decide (n ∈ apLeftNodes ops k)) = [] := by
        rw [List.filter_eq_nil_iff]
        intro n hn hp
        rw [decide_eq_true_eq] at hp
        have h1m : InsOp.app n k ∈ ops := (mem_appNodes ops k n).mp hn
        have h2m : InsOp.appl n k ∈ ops := (mem_apLeftNodes ops k n).mp hp
        exact InsOp.noConfusion (List.inj_on_of_nodup_map hnd h1m h2m rfl)
      rw [hleftself, hrightnil, List.append_nil]

/-- Instantiation of `append_popleft_order` on the range `[-3, 3]` with
two `appendleft` ties and an `append` tie at key 2 plus a lone `append`
at key 0. -/
theorem append_popleft_order_witness :
    ∃ q2, applyIns (mkBPQueue (-3) 3 (fun _ => 0) (fun _ => false))
        [InsOp.appl 1 2, InsOp.app 2 2, InsOp.app 3 0, InsOp.appl 4 2] = some q2 ∧
      List.Sorted (· ≥ ·) ((drainAll q2).map (fun n => q2.offset + (q2.key n : Int))) ∧
      (∀ k : Int,
        (drainAll q2).filter (fun n => decide
          (n ∈ appNodes [InsOp.appl 1 2, InsOp.app 2 2, InsOp.app 3 0, InsOp.appl 4 2] k)) =
        appNodes [InsOp.appl 1 2, InsOp.app 2 2, InsOp.app 3 0, InsOp.appl 4 2] k) ∧
      (∀ k : Int,
        (drainAll q2).filter (fun n => decide
          (n ∈ apLeftNodes [InsOp.appl 1 2, InsOp.app 2 2, InsOp.app 3 0, InsOp.appl 4 2] k)) =
        (apLeftNodes [InsOp.appl 1 2, InsOp.app 2 2, InsOp.app 3 0, InsOp.appl 4 2] k).reverse) :=
  append_popleft_order (-3) 3 (fun _ => 0) (fun _ => false)
    [InsOp.appl 1 2, InsOp.app 2 2, InsOp.app 3 0, InsOp.appl 4 2]
    (by decide) (by decide) (by decide) (by decide) (by decide)

end Mywheel
